import Mathlib

set_option maxRecDepth 1000000

/-!
Verification of the canonical Huffman compressor in `src/huffman.c`.

The development shallowly embeds the C program: machine integers are `Nat`
with explicit reduction modulo `2 ^ w` where the C type wraps, fallible
operations return `Option`, and the in-memory structures (heap, stack, code
table, input buffer) are modelled as Lean structures over lists.  Loops whose
termination is not structural take an explicit `fuel` argument; every caller
passes a bound that is proved (or computed) sufficient, so the embedded
functions agree with the C loops on all inputs the theorems mention.
-/

namespace Huffman

open scoped List

/-- Modulus of the C type `uint32_t`. -/
def U32 : Nat := 2 ^ 32

/-- Modulus of the C type `uint8_t`. -/
def U8 : Nat := 2 ^ 8

/-- Modulus of the C type `size_t` (64-bit platform). -/
def USIZE : Nat := 2 ^ 64

/-- `SYMBOL_SIZE` from the source: the 128-symbol alphabet. -/
def SYMBOL_SIZE : Nat := 128

/-- `uint32_be_read`: big-endian read of four bytes (source lines 43-45). -/
def uint32_be_read (b0 b1 b2 b3 : Nat) : Nat :=
  b0 * 2 ^ 24 + b1 * 2 ^ 16 + b2 * 2 ^ 8 + b3

/-- `uint32_be_write`: the four big-endian bytes of `value` reduced to
`uint32_t` (source lines 47-52; the `size_t` length is truncated to
`uint32_t` at the call site in `compress`). -/
def uint32_be_write (value : Nat) : List Nat :=
  let v := value % U32
  [v / 2 ^ 24 % 2 ^ 8, v / 2 ^ 16 % 2 ^ 8, v / 2 ^ 8 % 2 ^ 8, v % 2 ^ 8]

/-- `struct Node` (source lines 54-59): `symbol` is the `char` field as a
byte value, `count` the `size_t` weight, and the children model the
`left`/`right` pointers (`none` = `NULL`). -/
inductive Node where
  | mk (symbol : Nat) (count : Nat) (left : Option Node) (right : Option Node)

def Node.symbol : Node → Nat
  | .mk s _ _ _ => s

def Node.count : Node → Nat
  | .mk _ c _ _ => c

def Node.left : Node → Option Node
  | .mk _ _ l _ => l

def Node.right : Node → Option Node
  | .mk _ _ _ r => r

/-- `node_new` (source 61-68): a zeroed node. -/
def node_new : Node := .mk 0 0 none none

/-- `node_new_leaf` (source 70-80). -/
def node_new_leaf (symbol count : Nat) : Node := .mk symbol count none none

/-- `node_new_internal` (source 82-92): symbol `'\0'`, weight the `size_t`
sum of the children's weights. -/
def node_new_internal (l r : Node) : Node :=
  .mk 0 ((l.count + r.count) % USIZE) (some l) (some r)

/-- Number of nodes of a tree (used only as loop fuel / capacity bookkeeping). -/
def Node.size : Node → Nat
  | .mk _ _ none none => 1
  | .mk _ _ none (some r) => 1 + r.size
  | .mk _ _ (some l) none => 1 + l.size
  | .mk _ _ (some l) (some r) => 1 + l.size + r.size

/-- `struct Heap` (source 123-128); `data` is the live prefix of the backing
array (`length` elements), `capacity` the allocated slot count.  The
comparator pointer is passed to each operation instead of being stored. -/
structure Heap where
  capacity : Nat
  data : List Node

/-- `heap_new` (source 162-172). -/
def heap_new (capacity : Nat) : Heap := ⟨capacity, []⟩

/-- The `(int)` cast of a 64-bit unsigned value: keep the low 32 bits and
reinterpret in two's complement. -/
def int_of_size (n : Nat) : Int :=
  if n % U32 < 2 ^ 31 then (n % U32 : Nat) else (n % U32 : Nat) - (U32 : Int)

/-- `compare` (source 234-236): `(int)a->count - (int)b->count`, the only
comparator the program installs.  The subtraction is exact here (the C `int`
subtraction can overflow only for weights beyond `2^30`, where the C has
undefined behavior; the claims never depend on that region). -/
def compare (a b : Node) : Int := int_of_size a.count - int_of_size b.count

/-- Swap two positions of the backing array. -/
def lswap (l : List Node) (i j : Nat) : List Node :=
  (l.set i (l.getD j node_new)).set j (l.getD i node_new)

/-- The sift-up loop of `heap_insert` (source 180-186): while the hole has a
parent and compares below it, swap.  `fuel` bounds the iteration count; the
hole index strictly decreases, so `i + 1` steps always suffice. -/
def heap_sift_up (cmp : Node → Node → Int) : Nat → List Node → Nat → List Node
  | 0, data, _ => data
  | fuel + 1, data, i =>
    if i = 0 then data
    else
      let p := (i - 1) / 2
      if cmp (data.getD i node_new) (data.getD p node_new) < 0 then
        heap_sift_up cmp fuel (lswap data i p) p
      else data

/-- `heap_insert` (source 174-188): fails (`none`, the C `-1`) when
`length >= capacity`, otherwise appends at the end and sifts up. -/
def heap_insert (cmp : Node → Node → Int) (h : Heap) (v : Node) : Option Heap :=
  if h.data.length ≥ h.capacity then none
  else some ⟨h.capacity, heap_sift_up cmp (h.data.length + 1) (h.data ++ [v]) h.data.length⟩

/-- The hole-percolation loop of `heap_pop` (source 193-210): following the
C, a child slot participates when it is inside `length` and its node's
weight is nonzero; the smaller child (ties to the right) is swapped into the
hole.  Returns the array after the swaps and the final hole index.  The hole
index strictly increases, so `data.length` fuel always suffices. -/
def heap_sift_down (cmp : Node → Node → Int) :
    Nat → List Node → Nat → List Node × Nat
  | 0, data, hole => (data, hole)
  | fuel + 1, data, hole =>
    let len := data.length
    let li := 2 * hole + 1
    let ri := 2 * hole + 2
    let lv := data.getD li node_new
    let rv := data.getD ri node_new
    let lok := hole < len ∧ li < len ∧ lv.count ≠ 0
    let rok := hole < len ∧ ri < len ∧ rv.count ≠ 0
    if lok ∧ rok then
      let child := if cmp lv rv < 0 then li else ri
      heap_sift_down cmp fuel (lswap data hole child) child
    else if lok then heap_sift_down cmp fuel (lswap data hole li) li
    else if rok then heap_sift_down cmp fuel (lswap data hole ri) ri
    else (data, hole)

/-- `heap_pop` (source 190-213): reads the root, percolates the hole to the
bottom, then moves the last element into the hole and shrinks the length.
On an empty heap the C reads `data[0]` (`NULL` on a heap that was never
filled) and corrupts `length`; the model returns `none` and leaves the heap
unchanged, which is what every caller in the program observes on the only
path that pops an empty heap (a freshly created one). -/
def heap_pop (cmp : Node → Node → Int) (h : Heap) : Option Node × Heap :=
  match h.data with
  | [] => (none, h)
  | root :: _ =>
    let s := heap_sift_down cmp h.data.length h.data 0
    let d := s.1
    let last := d.getD (d.length - 1) node_new
    (some root, ⟨h.capacity, (d.set s.2 last).dropLast⟩)

/-- `struct Code` (source 238-242): `symbol` is the `char` as a byte,
`bits` the `uint32_t` pattern, `length` the `uint8_t` bit count. -/
structure Code where
  symbol : Nat
  bits : Nat
  length : Nat
deriving DecidableEq, Repr

/-- `code_append` (source 244-247): `bits = bits << 1 | bit; length++` in
`uint32_t` / `uint8_t` arithmetic. -/
def code_append (c : Code) (bit : Nat) : Code :=
  { c with bits := (c.bits * 2 + bit) % U32, length := (c.length + 1) % U8 }

/-- `freq_table_build` (source 345-367).  The input bytes have C type
`char`; the index `(size_t)inbuf->data[i]` is in bounds only for values
`0..127` (a negative `char` converts to a huge `size_t`), so the model
returns `none` on a byte outside the alphabet.  Returns the 128-entry
frequency table, `symbol_count`, and `node_count = 2 * symbol_count - 1`
computed in `size_t` arithmetic (it wraps for `symbol_count = 0`). -/
def freq_table_build (input : List Nat) : Option (List Nat × Nat × Nat) := do
  let fs ← input.foldlM (fun (st : List Nat × Nat) b => do
      let (freq, sc) := st
      if b < SYMBOL_SIZE then
        let e := freq.getD b 0
        pure (freq.set b (e + 1), if e = 0 then sc + 1 else sc)
      else none)
    (List.replicate SYMBOL_SIZE 0, 0)
  pure (fs.1, fs.2, (2 * fs.2 + (USIZE - 1)) % USIZE)

/-- The `while (pq->length > 1)` merge loop of `huffman_tree_from_freq`
(source 390-406) followed by the final `heap_pop`.  One merge removes two
nodes and inserts one, so `length + 1` fuel always suffices. -/
def huffman_merge_loop (cmp : Node → Node → Int) : Nat → Heap → Option Node
  | 0, _ => none
  | fuel + 1, pq =>
    if pq.data.length > 1 then
      let pa := heap_pop cmp pq
      let pb := heap_pop cmp pa.2
      match pa.1, pb.1 with
      | some a, some b =>
        match heap_insert cmp pb.2 (node_new_internal a b) with
        | some pq2 => huffman_merge_loop cmp fuel pq2
        | none => none
      | _, _ => none
    else (heap_pop cmp pq).1

/-- `huffman_tree_from_freq` (source 369-418): a heap of capacity
`node_count`, one leaf inserted per nonzero frequency in symbol order, then
the greedy merge loop.  `none` models every `goto cleanup` path that
returns `NULL`. -/
def huffman_tree_from_freq (freq : List Nat) (node_count : Nat) : Option Node := do
  let pq ← (List.range SYMBOL_SIZE).foldlM (fun pq ch =>
      if freq.getD ch 0 = 0 then pure pq
      else heap_insert compare pq (node_new_leaf ch (freq.getD ch 0)))
    (heap_new node_count)
  huffman_merge_loop compare (pq.data.length + 1) pq

/-- One iteration element of the traversal stack of
`code_table_from_huffman_tree` (`StackElement`, source 258-261). -/
abbrev StackElement := Node × Code

/-- The stack-driven traversal loop of `code_table_from_huffman_tree`
(source 490-525).  The stack is a list with its head as the top (the C
pushes at `data[length]` and pops `data[--length]`).  A processed node is
recorded in the table when it is a leaf; then its left child is pushed and
its right child is pushed (so the right child is processed first).  `none`
models the error paths (a full table or a full stack).  Each iteration
replaces one node by its children, so `size` of the stacked trees strictly
decreases and `root.size + 1` fuel suffices. -/
def code_table_loop (tblcap stcap : Nat) :
    Nat → List StackElement → List Code → Option (List Code)
  | 0, _, _ => none
  | fuel + 1, st, tbl =>
    match st with
    | [] => some tbl
    | (node, code) :: rest =>
      let tbl1? : Option (List Code) :=
        if node.left.isNone && node.right.isNone then
          if tbl.length ≥ tblcap then none else some (tbl ++ [code])
        else some tbl
      match tbl1? with
      | none => none
      | some tbl1 =>
        let st1? : Option (List StackElement) :=
          match node.left with
          | some ln =>
            if rest.length ≥ stcap then none
            else some ((ln, code_append { code with symbol := ln.symbol } 0) :: rest)
          | none => some rest
        match st1? with
        | none => none
        | some st1 =>
          let st2? : Option (List StackElement) :=
            match node.right with
            | some rn =>
              if st1.length ≥ stcap then none
              else some ((rn, code_append { code with symbol := rn.symbol } 1) :: st1)
            | none => some st1
          match st2? with
          | none => none
          | some st2 => code_table_loop tblcap stcap fuel st2 tbl1

/-- `code_table_from_huffman_tree` (source 466-547): table and stack both
have capacity `node_count`; the root is pushed with an empty code carrying
the root's symbol.  When the initial push fails (capacity `0`) the C takes
`goto cleanup` without setting `error` and returns the empty table. -/
def code_table_from_huffman_tree (root : Node) (node_count : Nat) : Option (List Code) :=
  if node_count = 0 then some []
  else
    code_table_loop node_count node_count (root.size + 1)
      [(root, { symbol := root.symbol, bits := 0, length := 0 })] []

/-- `struct InputBuffer` (source 300-305) restricted to what decompression
reads: the bytes actually present and the read cursor. -/
structure InputBuffer where
  data : List Nat
  position : Nat
deriving DecidableEq, Repr

/-- Read one byte at `position` and advance.  `none` models a read past the
bytes actually present: there the C reads uninitialized memory, or memory
beyond the allocation once `position` passes the buffer capacity. -/
def input_buffer_byte (b : InputBuffer) : Option (Nat × InputBuffer) :=
  match b.data.get? b.position with
  | some v => some (v, { b with position := b.position + 1 })
  | none => none

/-- The header-parsing loop of `code_table_from_compressed` (source
566-581): per entry, read a symbol byte and a length byte, advance the
canonical cursor exactly as `code_table_canonicalize` does, and append the
entry.  The table capacity equals the iteration count, so the C capacity
check never fires; it is kept for faithfulness. -/
def code_table_from_compressed_loop (tblcap : Nat) :
    Nat → InputBuffer → Code → List Code → Option (List Code × InputBuffer)
  | 0, b, _, tbl => some (tbl, b)
  | n + 1, b, cursor, tbl => do
    let (sym, b) ← input_buffer_byte b
    let (len, b) ← input_buffer_byte b
    let cursor1 :=
      if len > cursor.length then
        { cursor with bits := cursor.bits * 2 ^ (len - cursor.length) % U32, length := len }
      else cursor
    if tbl.length ≥ tblcap then none
    else
      code_table_from_compressed_loop tblcap n b
        { cursor1 with bits := (cursor1.bits + 1) % U32 }
        (tbl ++ [{ symbol := sym, bits := cursor1.bits, length := len }])

/-- `code_table_from_compressed` (source 549-600): read the 4-byte
big-endian original length, the 1-byte symbol count, then the
`(symbol, length)` pairs, assigning canonical patterns on the fly.  Returns
the original length, the table, and the buffer after the header. -/
def code_table_from_compressed (inbuf : InputBuffer) :
    Option (Nat × List Code × InputBuffer) := do
  let (b0, b) ← input_buffer_byte inbuf
  let (b1, b) ← input_buffer_byte b
  let (b2, b) ← input_buffer_byte b
  let (b3, b) ← input_buffer_byte b
  let (symbol_count, b) ← input_buffer_byte b
  let (tbl, b) ←
    code_table_from_compressed_loop symbol_count symbol_count b
      { symbol := 0, bits := 0, length := 0 } []
  pure (uint32_be_read b0 b1 b2 b3, tbl, b)

/-- The `(int)` reinterpretation of a byte stored in a (signed) `char`. -/
def sint8 (b : Nat) : Int :=
  if b % U8 < 128 then (b % U8 : Nat) else (b % U8 : Nat) - (U8 : Int)

/-- `code_table_compare` (source 602-609): ascending length, then ascending
`(int)char` symbol (the `char` is signed, so bytes `128..255` would order
below `0..127`; the program's alphabet stays in `0..127`). -/
def code_table_compare (a b : Code) : Int :=
  if a.length ≠ b.length then (a.length : Int) - (b.length : Int)
  else sint8 a.symbol - sint8 b.symbol

/-- The (reflexive total) order induced by `code_table_compare`. -/
def code_table_le (a b : Code) : Prop := code_table_compare a b ≤ 0

instance : DecidableRel code_table_le := fun a b =>
  inferInstanceAs (Decidable (code_table_compare a b ≤ 0))

/-- The numbering pass of `code_table_canonicalize` (source 614-626): a
running cursor `(bits, length)`; when an entry is longer, the cursor bits
are shifted left by the delta (in `uint32_t`); the entry receives the
cursor bits unchanged, and the cursor is incremented. -/
def code_assign_loop : List Code → Code → List Code
  | [], _ => []
  | c :: rest, cursor =>
    let cursor1 :=
      if c.length > cursor.length then
        { cursor with bits := cursor.bits * 2 ^ (c.length - cursor.length) % U32,
                      length := c.length }
      else cursor
    { c with bits := cursor1.bits } ::
      code_assign_loop rest { cursor1 with bits := (cursor1.bits + 1) % U32 }

/-- `code_table_canonicalize` (source 611-640): `qsort` with
`code_table_compare`, then the numbering pass.  `qsort` is modelled by
insertion sort: the two agree on every table whose `(length, symbol)` keys
are distinct, and on duplicate keys the resulting table is the same anyway
because the numbering pass overwrites `bits`, the only field that could
distinguish a tie order. -/
def code_table_canonicalize (t : List Code) : List Code :=
  code_assign_loop (List.insertionSort code_table_le t)
    { symbol := 0, bits := 0, length := 0 }

/-- The per-code walk of `huffman_tree_from_code_table` (source 658-676):
follow the code's bits from bit `length - 1` down to bit `0`, creating
missing children (zeroed nodes), and write the symbol into the node
reached.  Children of the node being replaced are kept as in the C (the
walk only ever adds children). -/
def tree_insert_code : Node → Nat → Nat → Nat → Node
  | .mk _ c l r, _, 0, sym => .mk sym c l r
  | .mk s c l r, bits, len + 1, sym =>
    if bits / 2 ^ len % 2 = 0 then
      .mk s c (some (tree_insert_code (l.getD node_new) bits len sym)) r
    else
      .mk s c l (some (tree_insert_code (r.getD node_new) bits len sym))

/-- `huffman_tree_from_code_table` (source 642-690): start from a zeroed
root and walk in each code of the table in order. -/
def huffman_tree_from_code_table (tbl : List Code) : Node :=
  tbl.foldl (fun root c => tree_insert_code root c.bits c.length c.symbol) node_new

/-- `code_table_find` (source 452-460): first entry whose symbol equals the
byte. -/
def code_table_find (tbl : List Code) (ch : Nat) : Option Code :=
  tbl.find? (fun c => c.symbol == ch)

/-- The bits of a code, most significant first (`for i = length-1 .. 0`). -/
def code_bits (c : Code) : List Nat :=
  (List.range c.length).reverse.map (fun i => c.bits / 2 ^ i % 2)

/-- One bit of the body-packing loop of `compress` (source 722-732): append
the bit to the accumulator byte; on reaching 8 bits emit it (truncated to a
byte by `fputc`) and reset. -/
def compress_emit_bit (st : Code × List Nat) (bit : Nat) : Code × List Nat :=
  let byte := code_append st.1 bit
  if byte.length = 8 then ({ byte with bits := 0, length := 0 }, st.2 ++ [byte.bits % U8])
  else (byte, st.2)

/-- `compress` (source 692-743): the 4-byte big-endian original length, the
table length as one byte, the `(symbol, length)` pairs in table order, then
the packed body; at the end, whenever the accumulator holds fewer than 8
bits (including zero), its bits are left-shifted into the high positions
and the byte is emitted.  `none` models the `-1` error returns (here: a
symbol with no code; output writes cannot fail in the model). -/
def compress (input : List Nat) (tbl : List Code) : Option (List Nat) := do
  let header := uint32_be_write input.length
  let pairs := (tbl.map (fun c => [c.symbol % U8, c.length % U8])).flatten
  let st ← input.foldlM (fun st ch => do
      let code ← code_table_find tbl ch
      pure ((code_bits code).foldl compress_emit_bit st))
    (({ symbol := 0, bits := 0, length := 0 } : Code), ([] : List Nat))
  let body :=
    if st.1.length ≠ 8 then st.2 ++ [st.1.bits * 2 ^ (8 - st.1.length) % U32 % U8]
    else st.2
  pure (header ++ [tbl.length % U8] ++ pairs ++ body)

/-- One byte of the `decompress` traversal (source 750-768): consume bits
most significant first while fewer than `char_count` symbols are emitted;
step to the left child on `0`, right on `1` (`none` models the `NULL`
dereference when the child is absent); on reaching a leaf emit its symbol
and restart at the root. -/
def decompress_byte (root : Node) (char_count byte : Nat)
    (st : Node × Nat × List Nat) : Option (Node × Nat × List Nat) :=
  (List.range 8).reverse.foldlM (fun st i =>
    if st.2.1 < char_count then do
      let next ← if byte / 2 ^ i % 2 = 0 then st.1.left else st.1.right
      if next.left.isNone && next.right.isNone then
        pure (root, st.2.1 + 1, st.2.2 ++ [next.symbol])
      else pure (next, st.2.1, st.2.2)
    else pure st) st

/-- `decompress` (source 746-771): walk every remaining byte of the buffer;
the function succeeds (C return `0`) even when fewer than `char_count`
symbols were produced. -/
def decompress (inbuf : InputBuffer) (root : Node) (char_count : Nat) :
    Option (List Nat) := do
  let st ← (inbuf.data.drop inbuf.position).foldlM
    (fun st byte => decompress_byte root char_count byte st) (root, 0, [])
  pure st.2.2

/-- The compression orchestration of `main` (source 902-933):
frequency analysis, tree build, code table, canonicalization, container
write. -/
def compress_pipeline (input : List Nat) : Option (List Nat) := do
  let (freq, _, node_count) ← freq_table_build input
  let root ← huffman_tree_from_freq freq node_count
  let tbl ← code_table_from_huffman_tree root node_count
  compress input (code_table_canonicalize tbl)

/-- The canonical code table the compression path derives for an input. -/
def canonical_table (input : List Nat) : Option (List Code) := do
  let (freq, _, node_count) ← freq_table_build input
  let root ← huffman_tree_from_freq freq node_count
  let tbl ← code_table_from_huffman_tree root node_count
  pure (code_table_canonicalize tbl)

/-- The decompression orchestration of `main` (source 935-957): parse the
container header, rebuild the tree, traverse the body. -/
def decompress_pipeline (container : List Nat) : Option (List Nat) := do
  let (char_count, tbl, b) ← code_table_from_compressed ⟨container, 0⟩
  decompress b (huffman_tree_from_code_table tbl) char_count

/-- Code `a` (its pattern truncated to its length, read most significant
bit first) is an initial segment of code `b`'s pattern. -/
def code_is_pref (a b : Code) : Bool :=
  decide (a.length ≤ b.length) &&
    decide (b.bits / 2 ^ (b.length - a.length) % 2 ^ a.length = a.bits % 2 ^ a.length)

/-- A code table is prefix-free: no entry's pattern is an initial segment
of a distinct entry's pattern. -/
def code_table_pref_free : List Code → Bool
  | [] => true
  | c :: rest =>
    rest.all (fun d => !code_is_pref c d && !code_is_pref d c) && code_table_pref_free rest

/-- The alphabet symbols with nonzero frequency, in ascending order: the
leaves `huffman_tree_from_freq` inserts. -/
def freq_support (freq : List Nat) : List Nat :=
  (List.range SYMBOL_SIZE).filter (fun ch => freq.getD ch 0 ≠ 0)

/-- Number of distinct symbols recorded in a frequency table (what
`freq_table_build` counts as it fills the table). -/
def freq_symbol_count (freq : List Nat) : Nat := (freq_support freq).length

/-- The code table the compression path derives from a frequency table:
tree build with capacity `2 * symbol_count - 1` (as `main` computes it for
a nonempty input), table extraction, canonicalization. -/
def canonical_table_of_freq (freq : List Nat) : Option (List Code) := do
  let nc := 2 * freq_symbol_count freq - 1
  let root ← huffman_tree_from_freq freq nc
  let tbl ← code_table_from_huffman_tree root nc
  pure (code_table_canonicalize tbl)

/-- Consecutive Fibonacci numbers, the classical weights that force a
maximally skewed Huffman tree. -/
def fibAux : Nat → Nat × Nat
  | 0 => (1, 1)
  | n + 1 => ((fibAux n).2, (fibAux n).1 + (fibAux n).2)

/-- A frequency table with Fibonacci counts on symbols `0..33` (total
input length 14 930 351 bytes): its Huffman tree is a depth-33 chain, so
the canonical numbering overflows the 32-bit `bits` field. -/
def fibFreq : List Nat :=
  (List.range SYMBOL_SIZE).map (fun i => if i < 34 then (fibAux i).1 else 0)

/-- The ordering the specification prescribes for canonicalization:
length ascending, then symbol ascending (symbols compared as the program
compares them, i.e. as signed `char`). -/
def canon_spec_le (a b : Code) : Prop :=
  a.length < b.length ∨ (a.length = b.length ∧ sint8 a.symbol ≤ sint8 b.symbol)

instance : DecidableRel canon_spec_le := fun a b =>
  inferInstanceAs (Decidable
    (a.length < b.length ∨ (a.length = b.length ∧ sint8 a.symbol ≤ sint8 b.symbol)))

/-- The canonical numbering as the specification words it: a running value
starting at `0` with length `0`; when an entry is longer than the running
length, shift left by the delta; assign the running value — masked to the
entry's length when `mask = true`, unmasked when `mask = false` — and
increment.  (On a sorted table the tracked running length always equals the
previous entry's length.) -/
def canon_assign_spec (mask : Bool) : List Code → Nat → Nat → List Code
  | [], _, _ => []
  | c :: rest, value, plen =>
    let v1 := if plen < c.length then value * 2 ^ (c.length - plen) % U32 else value
    { c with bits := if mask then v1 % 2 ^ c.length else v1 } ::
      canon_assign_spec mask rest ((v1 + 1) % U32)
        (if plen < c.length then c.length else plen)

/-- Sort by the specification's order, then number canonically;
`mask` selects whether patterns are masked to the entry's length. -/
def canon_spec_sort (mask : Bool) (t : List Code) : List Code :=
  canon_assign_spec mask (List.insertionSort canon_spec_le t) 0 0

/-- The header pair bytes `compress` emits for a table. -/
def pair_bytes (t : List Code) : List Nat :=
  (t.map (fun c => [c.symbol % U8, c.length % U8])).flatten

/-- Total number of code bits `compress` packs for an input: the sum over
input bytes of the length of the code found for each byte. -/
def total_bits (input : List Nat) (tbl : List Code) : Nat :=
  (input.map (fun ch => ((code_table_find tbl ch).getD ⟨0, 0, 0⟩).length)).sum

/-- The flattened bit stream `compress` packs. -/
def code_stream (tbl : List Code) (input : List Nat) : List Nat :=
  (input.map (fun ch => code_bits ((code_table_find tbl ch).getD ⟨0, 0, 0⟩))).flatten

/-- The packed body `compress` emits: the bit stream folded through the
byte accumulator, then the final flush. -/
def compress_body (input : List Nat) (tbl : List Code) : List Nat :=
  let st := (code_stream tbl input).foldl compress_emit_bit (⟨0, 0, 0⟩, [])
  if st.1.length ≠ 8 then st.2 ++ [st.1.bits * 2 ^ (8 - st.1.length) % U32 % U8]
  else st.2

/-- The distinct symbols of an input, in ascending order. -/
def distinct_symbols (input : List Nat) : List Nat :=
  (List.range SYMBOL_SIZE).filter (fun ch => ch ∈ input)

/-- Whether every node of a tree has either two children or none (every
tree the compression path builds is of this shape). -/
def Node.fullB : Node → Bool
  | .mk _ _ none none => true
  | .mk _ _ none (some _) => false
  | .mk _ _ (some _) none => false
  | .mk _ _ (some l) (some r) => l.fullB && r.fullB

/-- Leaf symbols in the order the table-extraction loop meets them
(right subtree first, matching the stack discipline). -/
def Node.leafSyms : Node → List Nat
  | .mk s _ none none => [s]
  | .mk _ _ none (some r) => r.leafSyms
  | .mk _ _ (some l) none => l.leafSyms
  | .mk _ _ (some l) (some r) => r.leafSyms ++ l.leafSyms

/-- Leaf depths in the same order as `Node.leafSyms`. -/
def Node.leafDepths : Node → List Nat
  | .mk _ _ none none => [0]
  | .mk _ _ none (some r) => r.leafDepths.map (· + 1)
  | .mk _ _ (some l) none => l.leafDepths.map (· + 1)
  | .mk _ _ (some l) (some r) => r.leafDepths.map (· + 1) ++ l.leafDepths.map (· + 1)

/-- Height of a tree. -/
def Node.depth : Node → Nat
  | .mk _ _ none none => 0
  | .mk _ _ none (some r) => r.depth + 1
  | .mk _ _ (some l) none => l.depth + 1
  | .mk _ _ (some l) (some r) => max l.depth r.depth + 1

/-- The table `code_table_from_huffman_tree`'s traversal produces, as a
recursive function: a leaf yields the accumulated code; an internal node
yields its right subtree's entries (popped first) then its left subtree's. -/
def Node.entries : Node → Code → List Code
  | .mk _ _ none none, c => [c]
  | .mk _ _ none (some r), c => r.entries (code_append { c with symbol := r.symbol } 1)
  | .mk _ _ (some l) none, c => l.entries (code_append { c with symbol := l.symbol } 0)
  | .mk _ _ (some l) (some r), c =>
    r.entries (code_append { c with symbol := r.symbol } 1) ++
      l.entries (code_append { c with symbol := l.symbol } 0)

/-- The heap reached by inserting leaves of weights 1, 2, 3, 10, 11, 4, 5
(in that order) into an empty heap of capacity 13 = 2x7-1. -/
def c8_heap0 : Option Heap :=
  [1, 2, 3, 10, 11, 4, 5].foldlM
    (fun h c => heap_insert compare h (node_new_leaf 0 c)) (heap_new 13)

/-- The same heap after four pops. -/
def c8_heap4 : Option Heap :=
  c8_heap0.map (fun h =>
    (heap_pop compare ((heap_pop compare
      ((heap_pop compare ((heap_pop compare h).2)).2)).2)).2)

/-!
## Theorems

The claim theorems and the helper lemmas they rest on.
-/

/-- Claim C1 (refuted at a concrete input): the round trip
`decompress(compress(x)) = x` fails for the non-empty in-alphabet input
`[97, 97]` ("aa"): its single symbol receives a code of length 0, so the
rebuilt decode tree is a bare leaf and the decoder's first bit step walks
into a `NULL` child (the model's `none`). -/
theorem C1_roundtrip_fails_on_single_symbol_input :
    (compress_pipeline [97, 97]).bind decompress_pipeline = none ∧
      (none : Option (List Nat)) ≠ some [97, 97] := by
  exact ⟨by decide, by decide⟩

/-- Claim C2 (refuted at a concrete input): for the single-symbol input
`[97, 97]` the compression path produces a one-entry code table whose
entry has code length 0 (not ≥ 1 as claimed), and decompressing the
produced container does not reproduce the input (the decoder dereferences
a `NULL` child). -/
theorem C2_single_symbol_code_length_zero :
    canonical_table [97, 97] = some [{ symbol := 97, bits := 0, length := 0 }] ∧
      compress_pipeline [97, 97] = some [0, 0, 0, 2, 1, 97, 0, 0] ∧
      (compress_pipeline [97, 97]).bind decompress_pipeline = none := by
  refine ⟨by decide, by decide, by decide⟩

/-- Claim C7 (refuted at a concrete input): the container
`[0, 0, 0, 1, 5]` declares `symbol_count = 5` but has no header bytes after
it; `code_table_from_compressed` performs no bounds check and marches past
the end of the input (the model's `none` marks the first read beyond the
bytes present, where the C reads uninitialized or out-of-allocation
memory).  No `FormatError` is reported: the C has no such check at all. -/
theorem C7_truncated_header_reads_past_end :
    code_table_from_compressed ⟨[0, 0, 0, 1, 5], 0⟩ = none ∧
      decompress_pipeline [0, 0, 0, 1, 5] = none := by
  exact ⟨by decide, by decide⟩

/-- Claim C8 (refuted at a concrete input): inserting weights
1, 2, 3, 10, 11, 4, 5 into an empty capacity-13 heap and popping four
times (all within capacity, all weights positive) leaves the stored
weights `[10, 5, 11]`, and the fifth pop returns the weight-10 node even
though a weight-5 node is stored: `heap_pop` does not return a node of
minimal weight.  (The C pop moves the last array element into the hole at
the bottom of the percolation path without sifting it, so the heap
invariant is lost.) -/
theorem C8_pop_returns_non_minimal_node :
    c8_heap4.map (fun h => h.data.map Node.count) = some [10, 5, 11] ∧
      c8_heap4.map (fun h => (heap_pop compare h).1.map Node.count) =
        some (some 10) ∧ (5 : Nat) < 10 := by
  refine ⟨by decide, by decide, by decide⟩

/-- Claim C9 (confirmed): on the empty input `freq_table_build` reports
`symbol_count = 0` and `node_count = 2 * 0 - 1` wrapped in `size_t`
arithmetic to `2 ^ 64 - 1`, and the compression pipeline produces no
container at all (the C's giant heap allocation fails; the model's merge
loop pops an empty heap). -/
theorem C9_empty_input_node_count_wraps :
    freq_table_build [] = some (List.replicate SYMBOL_SIZE 0, 0, 2 ^ 64 - 1) ∧
      compress_pipeline [] = none := by
  exact ⟨by decide, by decide⟩

/-- Claim C5, counterexample: the Fibonacci frequency table on symbols
0..33 (realizable by an input of 14 930 351 bytes) drives the compression
path to a depth-33 chain tree; the canonical numbering overflows the
32-bit `bits` field and the resulting table is NOT prefix-free (the
length-1 code `0` is an initial segment of the truncated 33-bit code). -/
theorem C5_counterexample_depth_33_table_not_pref_free :
    (canonical_table_of_freq fibFreq).map code_table_pref_free = some false := by
  decide

/-- Claim C6, counterexample: for the input `[0,1,0,1,0,1,0,1]` the two
codes have length 1, so `totalBits = 8` and the claimed container size is
`4 + 1 + 2*2 + ceil(8/8) = 10` bytes; the program emits 11 bytes (after
flushing the full byte the accumulator is empty, `length != 8` still
holds, and an extra zero byte is written). -/
theorem C6_counterexample_extra_padding_byte :
    (canonical_table [0, 1, 0, 1, 0, 1, 0, 1]).map (fun t => t.map Code.length) =
        some [1, 1] ∧
      (compress_pipeline [0, 1, 0, 1, 0, 1, 0, 1]).map List.length = some 11 ∧
      4 + 1 + 2 * 2 + (8 + 7) / 8 ≠ 11 := by
  refine ⟨by decide, by decide, by decide⟩

/-- The program's comparator order coincides with the specification's
(length ascending, then symbol ascending as signed `char`). -/
theorem code_table_le_iff (a b : Code) : code_table_le a b ↔ canon_spec_le a b := by
  unfold code_table_le code_table_compare canon_spec_le
  generalize sint8 a.symbol = x
  generalize sint8 b.symbol = y
  split_ifs with h
  · omega
  · omega

/-- Ordered insertion only consults the relation through its decision
procedure, so equivalent relations insert identically. -/
theorem orderedInsert_congr {r s : Code → Code → Prop} [DecidableRel r] [DecidableRel s]
    (hrs : ∀ a b, r a b ↔ s a b) (a : Code) :
    ∀ l, List.orderedInsert r a l = List.orderedInsert s a l
  | [] => rfl
  | b :: l => by
    simp only [List.orderedInsert]
    by_cases h : r a b
    · rw [if_pos h, if_pos ((hrs a b).mp h)]
    · rw [if_neg h, if_neg (fun hs => h ((hrs a b).mpr hs)), orderedInsert_congr hrs a l]

/-- Insertion sort under equivalent relations. -/
theorem insertionSort_congr {r s : Code → Code → Prop} [DecidableRel r] [DecidableRel s]
    (hrs : ∀ a b, r a b ↔ s a b) :
    ∀ l : List Code, List.insertionSort r l = List.insertionSort s l
  | [] => rfl
  | a :: l => by
    simp only [List.insertionSort]
    rw [insertionSort_congr hrs l, orderedInsert_congr hrs a]

/-- The program's numbering pass coincides with the specification's
unmasked numbering (same cursor, no mask on assignment). -/
theorem code_assign_loop_eq_spec :
    ∀ (cs : List Code) (v p s : Nat),
      code_assign_loop cs { symbol := s, bits := v, length := p } =
        canon_assign_spec false cs v p
  | [], _, _, _ => rfl
  | c :: rest, v, p, s => by
    simp only [code_assign_loop, canon_assign_spec]
    by_cases h : p < c.length
    · simp only [if_pos h]
      exact congrArg _ (code_assign_loop_eq_spec rest _ _ s)
    · simp only [if_neg h]
      exact congrArg _ (code_assign_loop_eq_spec rest _ _ s)

/-- Claim C4, counterexample: on the table with three length-1 codes
(symbols 0, 1, 2) the program assigns the third entry the pattern `2`,
while the claim's numbering (pattern masked to the entry's length) would
assign `2 % 2^1 = 0`: `code_table_canonicalize` does not mask. -/
theorem C4_counterexample_pattern_not_masked :
    code_table_canonicalize
        [{ symbol := 0, bits := 0, length := 1 }, { symbol := 1, bits := 0, length := 1 },
          { symbol := 2, bits := 0, length := 1 }] ≠
      canon_spec_sort true
        [{ symbol := 0, bits := 0, length := 1 }, { symbol := 1, bits := 0, length := 1 },
          { symbol := 2, bits := 0, length := 1 }] := by
  decide

/-- Claim C4, amended (the mask removed): for every code table,
`code_table_canonicalize` sorts by (length ascending, symbol ascending)
and assigns each entry the running value itself (a `uint32_t`, not masked
to the entry's length), incrementing it afterwards and left-shifting it by
the length delta whenever the length grows. -/
theorem C4_canonicalize_sorts_and_numbers (t : List Code) :
    code_table_canonicalize t = canon_spec_sort false t := by
  unfold code_table_canonicalize canon_spec_sort
  rw [insertionSort_congr code_table_le_iff t]
  exact code_assign_loop_eq_spec _ 0 0 0

/-- Reading at a position whose suffix is known. -/
theorem input_buffer_byte_of_drop {data t : List Nat} {p a : Nat}
    (h : data.drop p = a :: t) :
    input_buffer_byte ⟨data, p⟩ = some (a, ⟨data, p + 1⟩) := by
  have hp : p < data.length := by
    by_contra hl
    rw [List.drop_eq_nil_of_le (by omega)] at h
    exact List.noConfusion h
  rw [List.drop_eq_getElem_cons hp] at h
  injection h with h1 _
  simp [input_buffer_byte, List.get?_eq_getElem?, List.getElem?_eq_getElem hp, h1]

/-- The suffix after advancing one position. -/
theorem drop_succ_of_drop_eq_cons {data t : List Nat} {p a : Nat}
    (h : data.drop p = a :: t) : data.drop (p + 1) = t := by
  rw [← List.tail_drop, h, List.tail_cons]

/-- The body loop of `compress` succeeds and folds the flattened bit
stream whenever every input byte has a code. -/
theorem compress_fold_eq (tbl : List Code) :
    ∀ (input : List Nat) (st : Code × List Nat),
      (∀ ch ∈ input, (code_table_find tbl ch).isSome) →
      input.foldlM (fun st ch => do
          let code ← code_table_find tbl ch
          pure ((code_bits code).foldl compress_emit_bit st)) st =
        some ((code_stream tbl input).foldl compress_emit_bit st)
  | [], st, _ => by simp [code_stream]
  | ch :: rest, st, hcov => by
    obtain ⟨c, hc⟩ := Option.isSome_iff_exists.mp (hcov ch (List.mem_cons_self ch rest))
    rw [List.foldlM_cons, hc]
    show (rest.foldlM _ ((code_bits c).foldl compress_emit_bit st)) = _
    rw [compress_fold_eq tbl rest _ (fun x hx => hcov x (List.mem_cons_of_mem ch hx))]
    simp only [code_stream, List.map_cons, List.flatten_cons, List.foldl_append, hc,
      Option.getD_some]

/-- `compress` on a covered input: the container is the length header, the
symbol-count byte, the pair bytes, and the packed body. -/
theorem compress_eq (input : List Nat) (tbl : List Code)
    (hcov : ∀ ch ∈ input, (code_table_find tbl ch).isSome) :
    compress input tbl =
      some (uint32_be_write input.length ++ [tbl.length % U8] ++ pair_bytes tbl ++
        compress_body input tbl) := by
  unfold compress
  rw [compress_fold_eq tbl input _ hcov]
  rfl

/-- Reading back the four written bytes recovers the value modulo `2^32`. -/
theorem uint32_be_read_write (v : Nat) :
    uint32_be_read ((uint32_be_write v).getD 0 0) ((uint32_be_write v).getD 1 0)
      ((uint32_be_write v).getD 2 0) ((uint32_be_write v).getD 3 0) = v % U32 := by
  simp only [uint32_be_read, uint32_be_write, U32, U8, List.getD]
  simp only [List.get?_eq_getElem?]
  norm_num
  omega

/-- Claim C10 (confirmed): for every input whose bytes all have codes,
`compress` succeeds — no error is reported — and the four header bytes it
writes are the big-endian representation of the input length reduced
modulo `2^32`. -/
theorem C10_original_length_stored_mod_U32 (input : List Nat) (tbl : List Code)
    (hcov : ∀ ch ∈ input, (code_table_find tbl ch).isSome) :
    ∃ out, compress input tbl = some out ∧
      out.take 4 = uint32_be_write input.length ∧
      uint32_be_read (out.getD 0 0) (out.getD 1 0) (out.getD 2 0) (out.getD 3 0) =
        input.length % U32 := by
  refine ⟨_, compress_eq input tbl hcov, ?_, ?_⟩
  · rw [List.append_assoc, List.append_assoc, List.take_append_of_le_length]
    · rw [List.take_of_length_le]
      simp [uint32_be_write]
    · simp [uint32_be_write]
  · have h4 : ∀ i, i < 4 →
        (uint32_be_write input.length ++ ([tbl.length % U8] ++
          (pair_bytes tbl ++ compress_body input tbl))).getD i 0 =
          (uint32_be_write input.length).getD i 0 := by
      intro i hi
      exact List.getD_append _ _ _ _ (by simp [uint32_be_write]; omega)
    rw [List.append_assoc, List.append_assoc]
    rw [h4 0 (by omega), h4 1 (by omega), h4 2 (by omega), h4 3 (by omega)]
    exact uint32_be_read_write input.length

/-- Witness for C10 at the concrete input `[97]` with the one-entry table
`[(97, 0, 1)]`. -/
theorem C10_witness :
    (∀ ch ∈ [97], (code_table_find [⟨97, 0, 1⟩] ch).isSome) ∧
      ∃ out, compress [97] [⟨97, 0, 1⟩] = some out ∧
        out.take 4 = uint32_be_write 1 ∧
        uint32_be_read (out.getD 0 0) (out.getD 1 0) (out.getD 2 0) (out.getD 3 0) =
          1 % U32 :=
  ⟨by decide, C10_original_length_stored_mod_U32 [97] [⟨97, 0, 1⟩] (by decide)⟩

/-- The header-parsing loop reproduces the numbering pass: reading back
`(symbol, length)` pairs written byte-for-byte from a table yields exactly
the entries `code_assign_loop` produces on that table. -/
theorem code_table_from_compressed_loop_eq (tblcap : Nat) :
    ∀ (cs : List Code) (data : List Nat) (p : Nat) (tbl : List Code) (cursor : Code)
      (rest : List Nat),
      data.drop p = pair_bytes cs ++ rest →
      (∀ c ∈ cs, c.symbol < U8 ∧ c.length < U8) →
      tbl.length + cs.length ≤ tblcap →
      code_table_from_compressed_loop tblcap cs.length ⟨data, p⟩ cursor tbl =
        some (tbl ++ code_assign_loop cs cursor, ⟨data, p + 2 * cs.length⟩)
  | [], data, p, tbl, cursor, rest, hd, hb, hcap => by
    simp [code_table_from_compressed_loop, code_assign_loop]
  | c :: cs', data, p, tbl, cursor, rest, hd, hb, hcap => by
    have hbc := hb c (List.mem_cons_self c cs')
    have hs : c.symbol % U8 = c.symbol := Nat.mod_eq_of_lt hbc.1
    have hl : c.length % U8 = c.length := Nat.mod_eq_of_lt hbc.2
    have hd1 : data.drop p =
        c.symbol :: (c.length :: (pair_bytes cs' ++ rest)) := by
      simpa [pair_bytes, hs, hl] using hd
    have hd2 : data.drop (p + 1) = c.length :: (pair_bytes cs' ++ rest) :=
      drop_succ_of_drop_eq_cons hd1
    have hd3 : data.drop (p + 1 + 1) = pair_bytes cs' ++ rest :=
      drop_succ_of_drop_eq_cons hd2
    have hcap1 : tbl.length < tblcap := by
      simp only [List.length_cons] at hcap; omega
    show code_table_from_compressed_loop tblcap (cs'.length + 1) ⟨data, p⟩ cursor tbl = _
    rw [code_table_from_compressed_loop]
    simp only [input_buffer_byte_of_drop hd1, input_buffer_byte_of_drop hd2,
      Option.bind_eq_bind, Option.some_bind]
    simp only [if_neg (by omega : ¬ tbl.length ≥ tblcap)]
    generalize hq : (if c.length > cursor.length then
        ({ symbol := cursor.symbol, bits := cursor.bits * 2 ^ (c.length - cursor.length) % U32,
           length := c.length } : Code)
      else cursor) = cursor1
    have HIH := code_table_from_compressed_loop_eq tblcap cs' data (p + 1 + 1)
      (tbl ++ [{ symbol := c.symbol, bits := cursor1.bits, length := c.length }])
      { symbol := cursor1.symbol, bits := (cursor1.bits + 1) % U32, length := cursor1.length }
      rest hd3 (fun x hx => hb x (List.mem_cons_of_mem c hx))
      (by simp only [List.length_append, List.length_cons, List.length_nil] at hcap ⊢; omega)
    rw [HIH]
    simp only [code_assign_loop, hq, List.append_assoc, List.singleton_append,
      List.length_cons]
    refine congrArg some (Prod.ext ?_ ?_)
    · rfl
    · simp only []
      congr 1
      omega

/-- Claim C3 (confirmed): for every list of `(symbol, length)` pairs (each
a byte) presented in canonical order, the encoder path
(`code_table_canonicalize` on a table carrying those pairs) and the
decoder path (`code_table_from_compressed` on a container whose header
holds the same pairs in the same order) assign identical bit patterns to
every entry — the decoder reproduces the canonicalized table exactly,
together with the original length read from the 4-byte header. -/
theorem C3_encoder_decoder_patterns_agree (t : List Code) (cc : Nat) (rest : List Nat)
    (hs : List.Sorted code_table_le t)
    (hb : ∀ c ∈ t, c.symbol < U8 ∧ c.length < U8)
    (_hn : t.length < U8) (hcc : cc < U32) :
    code_table_from_compressed
        ⟨uint32_be_write cc ++ t.length :: (pair_bytes t ++ rest), 0⟩ =
      some (cc, code_table_canonicalize t,
        ⟨uint32_be_write cc ++ t.length :: (pair_bytes t ++ rest), 5 + 2 * t.length⟩) := by
  obtain ⟨x0, x1, x2, x3, hw⟩ : ∃ a b c d, uint32_be_write cc = [a, b, c, d] :=
    ⟨_, _, _, _, rfl⟩
  have hread : uint32_be_read x0 x1 x2 x3 = cc := by
    have := uint32_be_read_write cc
    rw [hw] at this
    simpa [List.getD, Nat.mod_eq_of_lt hcc] using this
  have hd0 : (uint32_be_write cc ++ t.length :: (pair_bytes t ++ rest)).drop 0 =
      x0 :: (x1 :: (x2 :: (x3 :: (t.length :: (pair_bytes t ++ rest))))) := by
    simp [hw]
  have hd1 := drop_succ_of_drop_eq_cons hd0
  have hd2 := drop_succ_of_drop_eq_cons hd1
  have hd3 := drop_succ_of_drop_eq_cons hd2
  have hd4 := drop_succ_of_drop_eq_cons hd3
  have hd5 := drop_succ_of_drop_eq_cons hd4
  unfold code_table_from_compressed
  simp only [input_buffer_byte_of_drop hd0, input_buffer_byte_of_drop hd1,
    input_buffer_byte_of_drop hd2, input_buffer_byte_of_drop hd3,
    input_buffer_byte_of_drop hd4, Option.bind_eq_bind, Option.some_bind]
  rw [code_table_from_compressed_loop_eq t.length t _ (0 + 1 + 1 + 1 + 1 + 1) [] _ rest
    hd5 (fun c hc => hb c hc) (by simp)]
  simp only [Option.bind_eq_bind, Option.some_bind]
  unfold code_table_canonicalize
  rw [List.Sorted.insertionSort_eq hs, hread]
  simp only [List.nil_append]
  constructor

/-- Witness for C3 at the two-entry table `[(97, len 1), (98, len 1)]`,
original length 5, one trailing byte. -/
theorem C3_witness :
    List.Sorted code_table_le [⟨97, 0, 1⟩, ⟨98, 0, 1⟩] ∧
      (∀ c ∈ [(⟨97, 0, 1⟩ : Code), ⟨98, 0, 1⟩], c.symbol < U8 ∧ c.length < U8) ∧
      code_table_from_compressed
          ⟨uint32_be_write 5 ++
            List.length [(⟨97, 0, 1⟩ : Code), ⟨98, 0, 1⟩] ::
              (pair_bytes [⟨97, 0, 1⟩, ⟨98, 0, 1⟩] ++ [0]), 0⟩ =
        some (5, code_table_canonicalize [⟨97, 0, 1⟩, ⟨98, 0, 1⟩],
          ⟨uint32_be_write 5 ++
            List.length [(⟨97, 0, 1⟩ : Code), ⟨98, 0, 1⟩] ::
              (pair_bytes [⟨97, 0, 1⟩, ⟨98, 0, 1⟩] ++ [0]), 5 + 2 * 2⟩) :=
  ⟨by decide, by decide,
    C3_encoder_decoder_patterns_agree [⟨97, 0, 1⟩, ⟨98, 0, 1⟩] 5 [0]
      (by decide) (by decide) (by decide) (by decide)⟩

/-!
### Heap bookkeeping

The multiset of stored nodes through `heap_insert` and `heap_pop`: the
sifting passes only swap in-range slots, and a pop removes exactly the
root.  None of this depends on the comparator's decisions.
-/

/-- Setting an in-range position to its own value changes nothing. -/
theorem set_getD_self {l : List Node} {i : Nat} (_hi : i < l.length) :
    l.set i (l.getD i node_new) = l := by
  apply List.ext_getElem (by simp)
  intro k hk1 hk2
  rcases eq_or_ne i k with h | h
  · subst h
    simp [List.getD_eq_getElem?_getD, List.getElem?_eq_getElem hk2]
  · simp [List.getElem_set_of_ne h]

/-- A list splits around an in-range position. -/
theorem split_at_getD {l : List Node} {i : Nat} (hi : i < l.length) :
    l = l.take i ++ l.getD i node_new :: l.drop (i + 1) := by
  rw [List.getD_eq_getElem l node_new hi, ← List.drop_eq_getElem_cons hi,
    List.take_append_drop]

/-- Exchanging the elements around two middles is a permutation. -/
theorem perm_exchange (A M B : List Node) (x y : Node) :
    (A ++ x :: M) ++ y :: B ~ (A ++ y :: M) ++ x :: B := by
  have h1 : (A ++ x :: M) ++ y :: B = A ++ (x :: (M ++ y :: B)) := by
    simp [List.append_assoc]
  have h2 : (A ++ y :: M) ++ x :: B = A ++ (y :: (M ++ x :: B)) := by
    simp [List.append_assoc]
  rw [h1, h2]
  refine List.Perm.append_left A ?_
  calc x :: (M ++ y :: B) ~ x :: (y :: (M ++ B)) := List.Perm.cons x List.perm_middle
    _ ~ y :: (x :: (M ++ B)) := List.Perm.swap y x _
    _ ~ y :: (M ++ x :: B) := List.Perm.cons y List.perm_middle.symm

/-- Swapping two in-range positions permutes the array (ascending case). -/
theorem lswap_perm_lt {l : List Node} {i j : Nat} (hij : i < j) (hj : j < l.length) :
    lswap l i j ~ l := by
  have hi : i < l.length := lt_trans hij hj
  have hTlen : (l.take j).length = j := by simp [List.length_take]; omega
  have hiT : i < (l.take j).length := by omega
  have hTgetD : (l.take j).getD i node_new = l.getD i node_new := by
    simp [List.getD_eq_getElem?_getD, List.getElem?_take_of_lt hij]
  have hswap : lswap l i j =
      (l.take i ++ l.getD j node_new :: (l.take j).drop (i + 1)) ++
        l.getD i node_new :: l.drop (j + 1) := by
    unfold lswap
    rw [List.set_eq_take_cons_drop _
      (by simpa using hj : j < (l.set i (l.getD j node_new)).length)]
    rw [List.set_take, List.drop_set, if_pos (by omega)]
    rw [List.set_eq_take_cons_drop _ hiT, List.take_take, Nat.min_eq_left (le_of_lt hij)]
  have horig : l =
      (l.take i ++ l.getD i node_new :: (l.take j).drop (i + 1)) ++
        l.getD j node_new :: l.drop (j + 1) := by
    conv_lhs => rw [split_at_getD hj]
    conv_lhs => rw [show l.take j =
      l.take i ++ l.getD i node_new :: (l.take j).drop (i + 1) from by
        conv_lhs => rw [split_at_getD hiT]
        rw [List.take_take, Nat.min_eq_left (le_of_lt hij), hTgetD]]
  rw [hswap]
  conv_rhs => rw [horig]
  exact perm_exchange _ _ _ _ _

/-- Swapping two in-range positions permutes the array. -/
theorem lswap_perm {l : List Node} {i j : Nat} (hi : i < l.length) (hj : j < l.length) :
    lswap l i j ~ l := by
  rcases Nat.lt_trichotomy i j with h | h | h
  · exact lswap_perm_lt h hj
  · subst h
    unfold lswap
    rw [List.set_set, set_getD_self hi]
  · have : lswap l i j = lswap l j i := by
      unfold lswap
      rw [List.set_comm _ _ _ (by omega)]
    rw [this]
    exact lswap_perm_lt h hi

/-- Removing the element at an in-range position by overwriting it with the
last element and dropping the last slot: the removed element together with
the result is a permutation of the original. -/
theorem pop_remove_perm {l : List Node} {i : Nat} (hi : i < l.length) :
    l.getD i node_new :: (l.set i (l.getD (l.length - 1) node_new)).dropLast ~ l := by
  rcases eq_or_ne i (l.length - 1) with h | h
  · subst h
    rw [set_getD_self hi, List.dropLast_eq_take]
    conv_rhs => rw [split_at_getD hi]
    have : l.drop (l.length - 1 + 1) = [] := List.drop_eq_nil_of_le (by omega)
    rw [this]
    exact (List.perm_append_singleton _ _).symm
  · have hi1 : i < l.length - 1 := by omega
    have hlast : l.length - 1 < l.length := by omega
    have hTlen : (l.take (l.length - 1)).length = l.length - 1 := by
      rw [List.length_take]; omega
    have hiT : i < (l.take (l.length - 1)).length := by omega
    have hTgetD : (l.take (l.length - 1)).getD i node_new = l.getD i node_new := by
      simp [List.getD_eq_getElem?_getD, List.getElem?_take_of_lt hi1]
    have hres : (l.set i (l.getD (l.length - 1) node_new)).dropLast =
        l.take i ++ l.getD (l.length - 1) node_new :: (l.take (l.length - 1)).drop (i + 1) := by
      rw [List.dropLast_eq_take, List.length_set, List.set_take]
      rw [List.set_eq_take_cons_drop _ hiT, List.take_take,
        Nat.min_eq_left (le_of_lt hi1)]
    have horig : l =
        (l.take i ++ l.getD i node_new :: (l.take (l.length - 1)).drop (i + 1)) ++
          [l.getD (l.length - 1) node_new] := by
      conv_lhs => rw [split_at_getD hlast]
      conv_lhs => rw [show l.take (l.length - 1) =
        l.take i ++ l.getD i node_new :: (l.take (l.length - 1)).drop (i + 1) from by
          conv_lhs => rw [split_at_getD hiT]
          rw [List.take_take, Nat.min_eq_left (le_of_lt hi1), hTgetD]]
      have : l.drop (l.length - 1 + 1) = [] := List.drop_eq_nil_of_le (by omega)
      rw [this]
    rw [hres]
    conv_rhs => rw [horig]
    calc l.getD i node_new ::
          (l.take i ++ l.getD (l.length - 1) node_new :: (l.take (l.length - 1)).drop (i + 1)) ~
        l.getD i node_new :: l.getD (l.length - 1) node_new ::
          (l.take i ++ (l.take (l.length - 1)).drop (i + 1)) :=
          List.Perm.cons _ List.perm_middle
      _ ~ l.getD (l.length - 1) node_new :: l.getD i node_new ::
          (l.take i ++ (l.take (l.length - 1)).drop (i + 1)) := List.Perm.swap _ _ _
      _ ~ l.getD (l.length - 1) node_new ::
          (l.take i ++ l.getD i node_new :: (l.take (l.length - 1)).drop (i + 1)) :=
          List.Perm.cons _ List.perm_middle.symm
      _ ~ (l.take i ++ l.getD i node_new :: (l.take (l.length - 1)).drop (i + 1)) ++
          [l.getD (l.length - 1) node_new] := (List.perm_append_singleton _ _).symm

/-- Swapping preserves the array length. -/
theorem lswap_length (l : List Node) (i j : Nat) : (lswap l i j).length = l.length := by
  simp [lswap]

/-- After a swap, position `j` holds the old value of position `i`. -/
theorem lswap_getD_snd {l : List Node} {i j : Nat} (hj : j < l.length) :
    (lswap l i j).getD j node_new = l.getD i node_new := by
  unfold lswap
  rw [List.getD_eq_getElem _ node_new (by simpa using hj)]
  simp

/-- The sift-up pass only swaps in-range slots. -/
theorem heap_sift_up_perm (cmp : Node → Node → Int) :
    ∀ (fuel : Nat) (data : List Node) (i : Nat), i < data.length →
      heap_sift_up cmp fuel data i ~ data
  | 0, data, _, _ => List.Perm.refl data
  | fuel + 1, data, i, hi => by
    unfold heap_sift_up
    by_cases h0 : i = 0
    · rw [if_pos h0]
    · rw [if_neg h0]
      by_cases hc : cmp (data.getD i node_new) (data.getD ((i - 1) / 2) node_new) < 0
      · rw [if_pos hc]
        have hp : (i - 1) / 2 < data.length := lt_of_le_of_lt (by omega) hi
        exact (heap_sift_up_perm cmp fuel (lswap data i ((i - 1) / 2)) ((i - 1) / 2)
          (by rw [lswap_length]; exact hp)).trans (lswap_perm hi hp)
      · rw [if_neg hc]

/-- `heap_insert` under free capacity: success, and the stored multiset
gains exactly the new node. -/
theorem heap_insert_spec {cmp : Node → Node → Int} {h : Heap} {v : Node}
    (hlt : h.data.length < h.capacity) :
    ∃ h', heap_insert cmp h v = some h' ∧ h'.capacity = h.capacity ∧
      h'.data ~ v :: h.data := by
  refine ⟨⟨h.capacity, heap_sift_up cmp (h.data.length + 1) (h.data ++ [v]) h.data.length⟩,
    ?_, rfl, ?_⟩
  · unfold heap_insert
    rw [if_neg (by omega)]
  · exact (heap_sift_up_perm cmp (h.data.length + 1) (h.data ++ [v]) h.data.length
      (by simp)).trans (List.perm_append_singleton v h.data)

/-- The hole-percolation pass permutes the array, ends at an in-range hole,
and keeps the root's value at the hole. -/
theorem heap_sift_down_spec (cmp : Node → Node → Int) :
    ∀ (fuel : Nat) (data : List Node) (hole : Nat), hole < data.length →
      (heap_sift_down cmp fuel data hole).1 ~ data ∧
        (heap_sift_down cmp fuel data hole).2 < data.length ∧
        (heap_sift_down cmp fuel data hole).1.getD
            (heap_sift_down cmp fuel data hole).2 node_new =
          data.getD hole node_new
  | 0, data, hole, hh => ⟨List.Perm.refl data, hh, rfl⟩
  | fuel + 1, data, hole, hh => by
    have step : ∀ c : Nat, c < data.length →
        (heap_sift_down cmp fuel (lswap data hole c) c).1 ~ data ∧
          (heap_sift_down cmp fuel (lswap data hole c) c).2 < data.length ∧
          (heap_sift_down cmp fuel (lswap data hole c) c).1.getD
              (heap_sift_down cmp fuel (lswap data hole c) c).2 node_new =
            data.getD hole node_new := by
      intro c hc
      obtain ⟨p1, p2, p3⟩ := heap_sift_down_spec cmp fuel (lswap data hole c) c
        (by rw [lswap_length]; exact hc)
      refine ⟨p1.trans (lswap_perm hh hc), by rwa [lswap_length] at p2, ?_⟩
      rw [p3, lswap_getD_snd hc]
    simp only [heap_sift_down]
    split_ifs with h1 hc h2 h3
    · exact step _ h1.1.2.1
    · exact step _ h1.2.2.1
    · exact step _ h2.2.1
    · exact step _ h3.2.1
    · exact ⟨List.Perm.refl data, hh, rfl⟩

/-- `heap_pop` on a non-empty heap returns the root, and the root together
with the remaining stored nodes is a permutation of the old contents. -/
theorem heap_pop_spec {cmp : Node → Node → Int} {h : Heap} (hne : h.data ≠ []) :
    (heap_pop cmp h).1 = some (h.data.getD 0 node_new) ∧
      (heap_pop cmp h).2.capacity = h.capacity ∧
      h.data.getD 0 node_new :: (heap_pop cmp h).2.data ~ h.data := by
  obtain ⟨cap, data⟩ := h
  match data, hne with
  | root :: rest, _ =>
    have hh : 0 < (root :: rest).length := by simp
    obtain ⟨hperm, hlt, hval⟩ :=
      heap_sift_down_spec cmp (root :: rest).length (root :: rest) 0 hh
    have hlen : (heap_sift_down cmp (root :: rest).length (root :: rest) 0).1.length =
        (root :: rest).length := hperm.length_eq
    have h2 : (heap_sift_down cmp (root :: rest).length (root :: rest) 0).2 <
        (heap_sift_down cmp (root :: rest).length (root :: rest) 0).1.length := by omega
    have hsurg := pop_remove_perm h2
    rw [hval] at hsurg
    refine ⟨rfl, rfl, ?_⟩
    simp only [heap_pop, List.getD_cons_zero] at *
    exact hsurg.trans hperm

/-- Summing the leaf-symbol multisets of a per-symbol leaf list gives the
symbol multiset itself. -/
theorem leaf_map_sum (f : Nat → Nat) :
    ∀ S : List Nat,
      ((S.map (fun ch => node_new_leaf ch (f ch))).map
        (fun n => (n.leafSyms : Multiset Nat))).sum = (S : Multiset Nat)
  | [] => rfl
  | ch :: S => by
    simp only [List.map_cons, List.sum_cons, leaf_map_sum f S]
    show (↑([ch] : List Nat) : Multiset Nat) + ↑S = ↑(ch :: S)
    rw [Multiset.coe_add]
    rfl

/-- The greedy merge loop: with enough fuel, a non-empty heap within
capacity merges down to a single tree whose leaf-symbol multiset is the
union of the stored trees' leaf symbols; the tree is full whenever all the
stored trees are. -/
theorem huffman_merge_loop_spec (cmp : Node → Node → Int) :
    ∀ (fuel : Nat) (pq : Heap), pq.data ≠ [] → pq.data.length ≤ pq.capacity →
      pq.data.length + 1 ≤ fuel →
      ∃ root, huffman_merge_loop cmp fuel pq = some root ∧
        (root.leafSyms : Multiset Nat) =
          (pq.data.map (fun n => (n.leafSyms : Multiset Nat))).sum ∧
        ((∀ x ∈ pq.data, x.fullB = true) → root.fullB = true)
  | 0, pq, hne, _, hfuel => by
    exact absurd hfuel (by omega)
  | fuel + 1, pq, hne, hcap, hfuel => by
    by_cases hgt : pq.data.length > 1
    · obtain ⟨ha, hacap, haperm⟩ := @heap_pop_spec cmp pq hne
      set a := pq.data.getD 0 node_new with hadef
      set pq1 := (heap_pop cmp pq).2 with hpq1
      have hlen1 : pq1.data.length + 1 = pq.data.length := by
        have := haperm.length_eq
        simpa using this
      have hne1 : pq1.data ≠ [] := by
        rw [← List.length_pos]; omega
      obtain ⟨hb, hbcap, hbperm⟩ := @heap_pop_spec cmp pq1 hne1
      set b := pq1.data.getD 0 node_new with hbdef
      set pq2 := (heap_pop cmp pq1).2 with hpq2
      have hlen2 : pq2.data.length + 1 = pq1.data.length := by
        have := hbperm.length_eq
        simpa using this
      obtain ⟨pq3, hins, hinscap, hinsperm⟩ :=
        @heap_insert_spec cmp pq2 (node_new_internal a b)
          (by rw [hbcap, hacap] at *; omega)
      have hlen3 : pq3.data.length = pq2.data.length + 1 := by
        have := hinsperm.length_eq
        simpa using this
      have hne3 : pq3.data ≠ [] := by rw [← List.length_pos]; omega
      obtain ⟨root, hroot, hsyms, hfull⟩ := huffman_merge_loop_spec cmp fuel pq3 hne3
        (by rw [hinscap, hbcap, hacap]; omega) (by omega)
      refine ⟨root, ?_, ?_, ?_⟩
      · have hpa : heap_pop cmp pq = (some a, pq1) := Prod.ext ha hpq1.symm
        have hpb : heap_pop cmp pq1 = (some b, pq2) := Prod.ext hb hpq2.symm
        rw [huffman_merge_loop, if_pos hgt]
        simp only [hpa, hpb, hins]
        exact hroot
      · rw [hsyms]
        have e3 : (pq3.data.map (fun n => (n.leafSyms : Multiset Nat))).sum =
            ((node_new_internal a b).leafSyms : Multiset Nat) +
              (pq2.data.map (fun n => (n.leafSyms : Multiset Nat))).sum := by
          have := (hinsperm.map (fun n => (n.leafSyms : Multiset Nat))).sum_eq
          simpa using this
        have e2 : (pq1.data.map (fun n => (n.leafSyms : Multiset Nat))).sum =
            (b.leafSyms : Multiset Nat) +
              (pq2.data.map (fun n => (n.leafSyms : Multiset Nat))).sum := by
          have := (hbperm.map (fun n => (n.leafSyms : Multiset Nat))).sum_eq
          simpa using this.symm
        have e1 : (pq.data.map (fun n => (n.leafSyms : Multiset Nat))).sum =
            (a.leafSyms : Multiset Nat) +
              (pq1.data.map (fun n => (n.leafSyms : Multiset Nat))).sum := by
          have := (haperm.map (fun n => (n.leafSyms : Multiset Nat))).sum_eq
          simpa using this.symm
        have eint : ((node_new_internal a b).leafSyms : Multiset Nat) =
            (b.leafSyms : Multiset Nat) + (a.leafSyms : Multiset Nat) := by
          show ((b.leafSyms ++ a.leafSyms : List Nat) : Multiset Nat) = _
          rw [← Multiset.coe_add]
        rw [e3, eint, e1, e2]
        abel
      · intro hall
        refine hfull (fun x hx => ?_)
        have hamem : a ∈ pq.data := haperm.mem_iff.mp (List.mem_cons_self a _)
        have hbmem : b ∈ pq.data :=
          haperm.mem_iff.mp (List.mem_cons_of_mem a
            (hbperm.mem_iff.mp (List.mem_cons_self b _)))
        have hsub2 : ∀ y, y ∈ pq2.data → y ∈ pq.data := by
          intro y hy
          exact haperm.mem_iff.mp
            (List.mem_cons_of_mem a (hbperm.mem_iff.mp (List.mem_cons_of_mem b hy)))
        have hx3 : x ∈ node_new_internal a b :: pq2.data := hinsperm.mem_iff.mp hx
        rcases List.mem_cons.mp hx3 with hx3 | hx3
        · subst hx3
          show (a.fullB && b.fullB) = true
          rw [hall a hamem, hall b hbmem]
          rfl
        · exact hall x (hsub2 x hx3)
    · have hlen : pq.data.length = 1 := by
        have := List.length_pos.mpr hne
        omega
      obtain ⟨x, hx⟩ := List.length_eq_one.mp hlen
      obtain ⟨hpop, _, _⟩ := @heap_pop_spec cmp pq hne
      refine ⟨pq.data.getD 0 node_new, ?_, ?_, ?_⟩
      · rw [huffman_merge_loop, if_neg hgt]
        exact hpop
      · rw [hx]
        simp [List.getD_cons_zero]
      · intro hall
        apply hall
        rw [hx]
        simp [List.getD_cons_zero]

/-- The leaf-insertion fold of `huffman_tree_from_freq`: with enough
capacity it succeeds, and the heap then stores exactly one leaf per
nonzero-frequency symbol (as a permutation). -/
theorem leaf_fold_spec (freq : List Nat) :
    ∀ (chs : List Nat) (pq : Heap),
      (chs.filter (fun ch => freq.getD ch 0 ≠ 0)).length + pq.data.length ≤ pq.capacity →
      ∃ pq', chs.foldlM (fun pq ch =>
          if freq.getD ch 0 = 0 then pure pq
          else heap_insert compare pq (node_new_leaf ch (freq.getD ch 0))) pq = some pq' ∧
        pq'.capacity = pq.capacity ∧
        pq'.data ~ ((chs.filter (fun ch => freq.getD ch 0 ≠ 0)).map
          (fun ch => node_new_leaf ch (freq.getD ch 0))) ++ pq.data
  | [], pq, _ => ⟨pq, rfl, rfl, by simp⟩
  | ch :: chs, pq, hcap => by
    by_cases h0 : freq.getD ch 0 = 0
    · have hfil : (ch :: chs).filter (fun ch => freq.getD ch 0 ≠ 0) =
          chs.filter (fun ch => freq.getD ch 0 ≠ 0) := by
        rw [List.filter_cons_of_neg]
        simpa using h0
      rw [hfil] at hcap
      obtain ⟨pq', h1, h2, h3⟩ := leaf_fold_spec freq chs pq hcap
      exact ⟨pq', by rw [List.foldlM_cons, if_pos h0]; exact h1, h2, by rw [hfil]; exact h3⟩
    · have hfil : (ch :: chs).filter (fun ch => freq.getD ch 0 ≠ 0) =
          ch :: chs.filter (fun ch => freq.getD ch 0 ≠ 0) := by
        rw [List.filter_cons_of_pos]
        simpa using h0
      rw [hfil] at hcap
      simp only [List.length_cons] at hcap
      obtain ⟨pq1, hins, hinscap, hinsperm⟩ :=
        @heap_insert_spec compare pq
          (node_new_leaf ch (freq.getD ch 0)) (by omega)
      have hlen1 : pq1.data.length = pq.data.length + 1 := by
        have := hinsperm.length_eq
        simpa using this
      obtain ⟨pq', h1, h2, h3⟩ := leaf_fold_spec freq chs pq1 (by rw [hinscap]; omega)
      refine ⟨pq', ?_, by rw [h2, hinscap], ?_⟩
      · rw [List.foldlM_cons, if_neg h0, hins]
        exact h1
      · rw [hfil]
        refine h3.trans ?_
        calc (chs.filter (fun ch => freq.getD ch 0 ≠ 0)).map
              (fun ch => node_new_leaf ch (freq.getD ch 0)) ++ pq1.data ~
            (chs.filter (fun ch => freq.getD ch 0 ≠ 0)).map
              (fun ch => node_new_leaf ch (freq.getD ch 0)) ++
              (node_new_leaf ch (freq.getD ch 0) :: pq.data) :=
            List.Perm.append_left _ hinsperm
          _ ~ node_new_leaf ch (freq.getD ch 0) ::
              ((chs.filter (fun ch => freq.getD ch 0 ≠ 0)).map
                (fun ch => node_new_leaf ch (freq.getD ch 0)) ++ pq.data) :=
            List.perm_middle
          _ = (ch :: chs.filter (fun ch => freq.getD ch 0 ≠ 0)).map
              (fun ch => node_new_leaf ch (freq.getD ch 0)) ++ pq.data := by
            simp

/-- `huffman_tree_from_freq` on a frequency table with a non-empty support
that fits the heap: it returns a full tree whose leaf symbols are exactly
the support. -/
theorem huffman_tree_from_freq_spec (freq : List Nat) (node_count : Nat)
    (hne : freq_support freq ≠ [])
    (hcap : (freq_support freq).length ≤ node_count) :
    ∃ root, huffman_tree_from_freq freq node_count = some root ∧
      (root.leafSyms : Multiset Nat) = (freq_support freq : Multiset Nat) ∧
      root.fullB = true ∧ root.leafSyms.length = (freq_support freq).length := by
  obtain ⟨pq, hfold, hcap', hperm⟩ :=
    leaf_fold_spec freq (List.range SYMBOL_SIZE) (heap_new node_count)
      (by
        show (freq_support freq).length + 0 ≤ node_count
        omega)
  rw [show (heap_new node_count).data = [] from rfl, List.append_nil] at hperm
  have hlen : pq.data.length = (freq_support freq).length := by
    have := hperm.length_eq
    simpa [freq_support] using this
  have hne' : pq.data ≠ [] := by
    rw [← List.length_pos, hlen, List.length_pos]
    exact hne
  obtain ⟨root, hloop, hsyms, hfull⟩ :=
    huffman_merge_loop_spec compare (pq.data.length + 1) pq hne'
      (by rw [hcap', hlen]; exact hcap) (by omega)
  have hS : (root.leafSyms : Multiset Nat) = ((freq_support freq : List Nat) : Multiset Nat) := by
    rw [hsyms, (hperm.map (fun n : Node => (n.leafSyms : Multiset Nat))).sum_eq]
    exact leaf_map_sum (fun ch => freq.getD ch 0) (freq_support freq)
  refine ⟨root, ?_, hS, ?_, ?_⟩
  · unfold huffman_tree_from_freq
    rw [hfold]
    show huffman_merge_loop compare (pq.data.length + 1) pq = some root
    exact hloop
  · refine hfull (fun x hx => ?_)
    have hmem := hperm.mem_iff.mp hx
    obtain ⟨ch, _, hleaf⟩ := List.mem_map.mp hmem
    rw [← hleaf]
    rfl
  · have h1 : (root.leafSyms : Multiset Nat).card = root.leafSyms.length :=
      Multiset.coe_card root.leafSyms
    have h2 : ((freq_support freq : List Nat) : Multiset Nat).card =
        (freq_support freq).length := Multiset.coe_card _
    rw [← h1, hS, h2]

/-- Every tree has at least one node. -/
theorem Node.size_pos : ∀ n : Node, 1 ≤ n.size
  | .mk _ _ none none => le_refl 1
  | .mk _ _ none (some r) => by simp only [Node.size]; omega
  | .mk _ _ (some l) none => by simp only [Node.size]; omega
  | .mk _ _ (some l) (some r) => by simp only [Node.size]; omega

/-- Every tree has at least one leaf. -/
theorem Node.leafSyms_length_pos : ∀ n : Node, 1 ≤ n.leafSyms.length
  | .mk _ _ none none => le_refl 1
  | .mk _ _ none (some r) => r.leafSyms_length_pos
  | .mk _ _ (some l) none => l.leafSyms_length_pos
  | .mk _ _ (some l) (some r) => by
    simp only [Node.leafSyms, List.length_append]
    have := r.leafSyms_length_pos
    omega

/-- A stack never holds more elements than the total node count of the
trees it stores. -/
theorem stack_size_le : ∀ st : List StackElement,
    st.length ≤ (st.map (fun e => e.1.size)).sum
  | [] => le_refl 0
  | e :: st => by
    simp only [List.length_cons, List.map_cons, List.sum_cons]
    have h1 := stack_size_le st
    have h2 := Node.size_pos e.1
    omega

/-- The traversal yields one entry per leaf. -/
theorem Node.entries_length : ∀ (n : Node) (c : Code),
    (n.entries c).length = n.leafSyms.length
  | .mk _ _ none none, _ => rfl
  | .mk _ _ none (some r), c => by
    simp only [Node.entries, Node.leafSyms]
    exact r.entries_length _
  | .mk _ _ (some l) none, c => by
    simp only [Node.entries, Node.leafSyms]
    exact l.entries_length _
  | .mk _ _ (some l) (some r), c => by
    simp only [Node.entries, Node.leafSyms, List.length_append]
    rw [r.entries_length _, l.entries_length _]

/-- The stack machine of `code_table_from_huffman_tree` computes the
recursive traversal: with enough fuel and capacities it succeeds and
appends each stacked element's entries in order. -/
theorem code_table_loop_spec (tblcap stcap : Nat) :
    ∀ (fuel : Nat) (st : List StackElement) (tbl : List Code),
      (st.map (fun e => e.1.size)).sum + 1 ≤ fuel →
      (st.map (fun e => e.1.size)).sum ≤ stcap →
      tbl.length + (st.map (fun e => e.1.leafSyms.length)).sum ≤ tblcap →
      code_table_loop tblcap stcap fuel st tbl =
        some (tbl ++ (st.map (fun e => e.1.entries e.2)).flatten)
  | 0, st, tbl, hfuel, _, _ => by omega
  | fuel + 1, [], tbl, _, _, _ => by simp [code_table_loop]
  | fuel + 1, (node, code) :: rest, tbl, hfuel, hst, htbl => by
    have hrest_len := stack_size_le rest
    obtain ⟨s, k, l, r⟩ := node
    have hnodesize := Node.size_pos (Node.mk s k l r)
    simp only [List.map_cons, List.sum_cons] at hfuel hst htbl
    rcases l with _ | ln <;> rcases r with _ | rn
    · -- leaf: record the code, push nothing
      have hcap1 : ¬ tbl.length ≥ tblcap := by
        simp only [Node.leafSyms, List.length_singleton] at htbl
        omega
      simp only [code_table_loop, Node.left, Node.right, Option.isNone_none,
        Bool.and_self, if_true, if_neg hcap1]
      rw [code_table_loop_spec tblcap stcap fuel rest (tbl ++ [code])
        (by simp only [Node.size] at hfuel; omega)
        (by simp only [Node.size] at hst; omega)
        (by simp only [Node.leafSyms, List.length_singleton] at htbl
            simp only [List.length_append, List.length_singleton]
            omega)]
      simp [Node.entries, List.append_assoc]
    · -- right child only
      have hpush : ¬ rest.length ≥ stcap := by
        simp only [Node.size] at hst
        have := Node.size_pos rn
        omega
      simp only [code_table_loop, Node.left, Node.right, Option.isNone_none,
        Option.isNone_some, Bool.and_false, Bool.false_and, if_false,
        Bool.false_eq_true, if_neg hpush]
      rw [code_table_loop_spec tblcap stcap fuel
        ((rn, code_append { code with symbol := rn.symbol } 1) :: rest) tbl
        (by simp only [Node.size] at hfuel
            simp only [List.map_cons, List.sum_cons]
            omega)
        (by simp only [Node.size] at hst
            simp only [List.map_cons, List.sum_cons]
            omega)
        (by simp only [Node.leafSyms] at htbl
            simp only [List.map_cons, List.sum_cons]
            omega)]
      simp [Node.entries]
    · -- left child only
      have hpush : ¬ rest.length ≥ stcap := by
        simp only [Node.size] at hst
        have := Node.size_pos ln
        omega
      simp only [code_table_loop, Node.left, Node.right, Option.isNone_none,
        Option.isNone_some, Bool.and_false, Bool.false_and, if_false,
        Bool.false_eq_true, if_neg hpush]
      rw [code_table_loop_spec tblcap stcap fuel
        ((ln, code_append { code with symbol := ln.symbol } 0) :: rest) tbl
        (by simp only [Node.size] at hfuel
            simp only [List.map_cons, List.sum_cons]
            omega)
        (by simp only [Node.size] at hst
            simp only [List.map_cons, List.sum_cons]
            omega)
        (by simp only [Node.leafSyms] at htbl
            simp only [List.map_cons, List.sum_cons]
            omega)]
      simp [Node.entries]
    · -- two children: push left, then right (right processed first)
      have hsz : Node.size (Node.mk s k (some ln) (some rn)) = 1 + ln.size + rn.size := rfl
      have hpush1 : ¬ rest.length ≥ stcap := by
        rw [hsz] at hst
        have := Node.size_pos ln
        have := Node.size_pos rn
        omega
      have hpush2 : ¬ ((ln, code_append { code with symbol := ln.symbol } 0) :: rest).length ≥
          stcap := by
        simp only [List.length_cons]
        rw [hsz] at hst
        have := Node.size_pos ln
        have := Node.size_pos rn
        omega
      simp only [code_table_loop, Node.left, Node.right, Option.isNone_some,
        Bool.and_false, Bool.false_and, if_false, Bool.false_eq_true,
        if_neg hpush1, if_neg hpush2]
      rw [code_table_loop_spec tblcap stcap fuel
        ((rn, code_append { code with symbol := rn.symbol } 1) ::
          (ln, code_append { code with symbol := ln.symbol } 0) :: rest) tbl
        (by rw [hsz] at hfuel
            simp only [List.map_cons, List.sum_cons]
            omega)
        (by rw [hsz] at hst
            simp only [List.map_cons, List.sum_cons]
            omega)
        (by simp only [Node.leafSyms, List.length_append] at htbl
            simp only [List.map_cons, List.sum_cons]
            omega)]
      simp [Node.entries, List.append_assoc]

/-- `code_table_from_huffman_tree` on a tree fitting its capacities yields
exactly the traversal's entries, rooted at an empty code carrying the
root's symbol. -/
theorem code_table_from_huffman_tree_spec (root : Node) (node_count : Nat)
    (hnc : node_count ≠ 0) (hsize : root.size ≤ node_count)
    (hleaves : root.leafSyms.length ≤ node_count) :
    code_table_from_huffman_tree root node_count =
      some (root.entries { symbol := root.symbol, bits := 0, length := 0 }) := by
  unfold code_table_from_huffman_tree
  rw [if_neg hnc]
  rw [code_table_loop_spec node_count node_count (root.size + 1)
    [(root, { symbol := root.symbol, bits := 0, length := 0 })] []
    (by simp) (by simpa using hsize) (by simpa using hleaves)]
  simp

/-- There is always at least one leaf depth. -/
theorem Node.leafDepths_ne_nil : ∀ n : Node, n.leafDepths ≠ []
  | .mk _ _ none none => by simp [Node.leafDepths]
  | .mk _ _ none (some r) => by
    simp only [Node.leafDepths, ne_eq, List.map_eq_nil_iff]
    exact r.leafDepths_ne_nil
  | .mk _ _ (some l) none => by
    simp only [Node.leafDepths, ne_eq, List.map_eq_nil_iff]
    exact l.leafDepths_ne_nil
  | .mk _ _ (some l) (some r) => by
    simp only [Node.leafDepths, ne_eq, List.append_eq_nil, List.map_eq_nil_iff]
    rintro ⟨h, -⟩
    exact r.leafDepths_ne_nil h

/-- The traversal's entry lengths are the leaf depths shifted by the
starting code length, as long as no `uint8_t` wraparound occurs. -/
theorem Node.entries_map_length : ∀ (n : Node) (c : Code),
    c.length + n.depth ≤ 255 →
    (n.entries c).map Code.length = n.leafDepths.map (· + c.length)
  | .mk _ _ none none, c, _ => by
    simp [Node.entries, Node.leafDepths]
  | .mk _ _ none (some r), c, h => by
    simp only [Node.depth] at h
    have hlen : (code_append { c with symbol := r.symbol } 1).length = c.length + 1 := by
      simp only [code_append]
      exact Nat.mod_eq_of_lt (by unfold U8; omega)
    simp only [Node.entries, Node.leafDepths]
    rw [r.entries_map_length _ (by rw [hlen]; omega), hlen, List.map_map]
    refine List.map_congr_left (fun d _ => ?_)
    simp only [Function.comp_apply]
    omega
  | .mk _ _ (some l) none, c, h => by
    simp only [Node.depth] at h
    have hlen : (code_append { c with symbol := l.symbol } 0).length = c.length + 1 := by
      simp only [code_append]
      exact Nat.mod_eq_of_lt (by unfold U8; omega)
    simp only [Node.entries, Node.leafDepths]
    rw [l.entries_map_length _ (by rw [hlen]; omega), hlen, List.map_map]
    refine List.map_congr_left (fun d _ => ?_)
    simp only [Function.comp_apply]
    omega
  | .mk _ _ (some l) (some r), c, h => by
    simp only [Node.depth] at h
    have hlenr : (code_append { c with symbol := r.symbol } 1).length = c.length + 1 := by
      simp only [code_append]
      exact Nat.mod_eq_of_lt (by unfold U8; omega)
    have hlenl : (code_append { c with symbol := l.symbol } 0).length = c.length + 1 := by
      simp only [code_append]
      exact Nat.mod_eq_of_lt (by unfold U8; omega)
    simp only [Node.entries, Node.leafDepths, List.map_append]
    rw [r.entries_map_length _ (by rw [hlenr]; omega), hlenr,
      l.entries_map_length _ (by rw [hlenl]; omega), hlenl, List.map_map, List.map_map]
    have hc : ∀ m : List Nat,
        m.map (· + (c.length + 1)) = m.map ((· + c.length) ∘ (· + 1)) := fun m =>
      List.map_congr_left (fun d _ => by simp only [Function.comp_apply]; omega)
    rw [hc, hc]

/-- The traversal's entry symbols are the leaf symbols, given that the
starting code carries the root's symbol (as the program arranges). -/
theorem Node.entries_map_symbol : ∀ (n : Node) (c : Code), c.symbol = n.symbol →
    (n.entries c).map Code.symbol = n.leafSyms
  | .mk s _ none none, c, hc => by
    simp only [Node.entries, Node.leafSyms, List.map_cons, List.map_nil]
    rw [hc]
    rfl
  | .mk _ _ none (some r), c, _ => by
    simp only [Node.entries, Node.leafSyms]
    exact r.entries_map_symbol _ rfl
  | .mk _ _ (some l) none, c, _ => by
    simp only [Node.entries, Node.leafSyms]
    exact l.entries_map_symbol _ rfl
  | .mk _ _ (some l) (some r), c, _ => by
    simp only [Node.entries, Node.leafSyms, List.map_append]
    rw [r.entries_map_symbol _ rfl, l.entries_map_symbol _ rfl]

/-- Kraft's equality for full trees: the leaf depths of a full binary tree
scaled to any common level `L` sum to `2 ^ L`. -/
theorem Node.kraft : ∀ n : Node, n.fullB = true → ∀ L : Nat,
    (∀ d ∈ n.leafDepths, d ≤ L) →
    (n.leafDepths.map (fun d => 2 ^ (L - d))).sum = 2 ^ L
  | .mk _ _ none none, _, L, _ => by simp [Node.leafDepths]
  | .mk _ _ none (some r), hfull, L, _ => by
    simp [Node.fullB] at hfull
  | .mk _ _ (some l) none, hfull, L, _ => by
    simp [Node.fullB] at hfull
  | .mk _ _ (some l) (some r), hfull, L, hle => by
    simp only [Node.fullB, Bool.and_eq_true] at hfull
    simp only [Node.leafDepths, List.map_append, List.sum_append]
    have hL : 1 ≤ L := by
      obtain ⟨d0, hd0⟩ := List.exists_mem_of_ne_nil _ r.leafDepths_ne_nil
      have := hle (d0 + 1) (by
        simp only [Node.leafDepths, List.mem_append, List.mem_map]
        exact Or.inl ⟨d0, hd0, rfl⟩)
      omega
    rw [show ((r.leafDepths.map (· + 1)).map (fun d => 2 ^ (L - d))).sum =
        (r.leafDepths.map (fun d => 2 ^ (L - 1 - d))).sum from by
      rw [List.map_map]
      exact congrArg List.sum (List.map_congr_left (fun d _ => by
        simp only [Function.comp_apply]; congr 1; omega))]
    rw [show ((l.leafDepths.map (· + 1)).map (fun d => 2 ^ (L - d))).sum =
        (l.leafDepths.map (fun d => 2 ^ (L - 1 - d))).sum from by
      rw [List.map_map]
      exact congrArg List.sum (List.map_congr_left (fun d _ => by
        simp only [Function.comp_apply]; congr 1; omega))]
    rw [r.kraft hfull.2 (L - 1) (fun d hd => by
      have := hle (d + 1) (by
        simp only [Node.leafDepths, List.mem_append, List.mem_map]
        exact Or.inl ⟨d, hd, rfl⟩)
      omega)]
    rw [l.kraft hfull.1 (L - 1) (fun d hd => by
      have := hle (d + 1) (by
        simp only [Node.leafDepths, List.mem_append, List.mem_map]
        exact Or.inr ⟨d, hd, rfl⟩)
      omega)]
    rw [← two_mul, ← pow_succ']
    congr 1
    omega

/-- A full tree's height is below its leaf count. -/
theorem Node.depth_lt_leaves : ∀ n : Node, n.fullB = true →
    n.depth + 1 ≤ n.leafSyms.length
  | .mk _ _ none none, _ => le_refl 1
  | .mk _ _ none (some r), hfull => by simp [Node.fullB] at hfull
  | .mk _ _ (some l) none, hfull => by simp [Node.fullB] at hfull
  | .mk _ _ (some l) (some r), hfull => by
    simp only [Node.fullB, Bool.and_eq_true] at hfull
    have hl := l.depth_lt_leaves hfull.1
    have hr := r.depth_lt_leaves hfull.2
    have hlp := l.leafSyms_length_pos
    have hrp := r.leafSyms_length_pos
    simp only [Node.depth, Node.leafSyms, List.length_append]
    rcases Nat.le_total l.depth r.depth with h | h
    · rw [Nat.max_eq_right h]; omega
    · rw [Nat.max_eq_left h]; omega

/-- A full tree with `k` leaves has `2k - 1` nodes. -/
theorem Node.size_full : ∀ n : Node, n.fullB = true →
    n.size + 1 = 2 * n.leafSyms.length
  | .mk _ _ none none, _ => rfl
  | .mk _ _ none (some r), hfull => by simp [Node.fullB] at hfull
  | .mk _ _ (some l) none, hfull => by simp [Node.fullB] at hfull
  | .mk _ _ (some l) (some r), hfull => by
    simp only [Node.fullB, Bool.and_eq_true] at hfull
    have hl := l.size_full hfull.1
    have hr := r.size_full hfull.2
    simp only [Node.size, Node.leafSyms, List.length_append]
    omega

/-- Every leaf depth is bounded by the height. -/
theorem Node.leafDepths_le_depth : ∀ n : Node, ∀ d ∈ n.leafDepths, d ≤ n.depth
  | .mk _ _ none none, d, hd => by
    simp only [Node.leafDepths, List.mem_singleton] at hd
    simp [hd, Node.depth]
  | .mk _ _ none (some r), d, hd => by
    simp only [Node.leafDepths, List.mem_map] at hd
    obtain ⟨d0, hd0, rfl⟩ := hd
    have := r.leafDepths_le_depth d0 hd0
    simp only [Node.depth]
    omega
  | .mk _ _ (some l) none, d, hd => by
    simp only [Node.leafDepths, List.mem_map] at hd
    obtain ⟨d0, hd0, rfl⟩ := hd
    have := l.leafDepths_le_depth d0 hd0
    simp only [Node.depth]
    omega
  | .mk _ _ (some l) (some r), d, hd => by
    simp only [Node.leafDepths, List.mem_append, List.mem_map] at hd
    simp only [Node.depth]
    rcases hd with ⟨d0, hd0, rfl⟩ | ⟨d0, hd0, rfl⟩
    · have := r.leafDepths_le_depth d0 hd0
      have : d0 ≤ max l.depth r.depth := le_trans this (le_max_right _ _)
      omega
    · have := l.leafDepths_le_depth d0 hd0
      have : d0 ≤ max l.depth r.depth := le_trans this (le_max_left _ _)
      omega

/-- The order induced by the comparator is transitive. -/
instance : IsTrans Code code_table_le :=
  ⟨fun a b c hab hbc => by
    rw [code_table_le_iff] at *
    unfold canon_spec_le at *
    rcases hab with h1 | ⟨h1, h1s⟩ <;> rcases hbc with h2 | ⟨h2, h2s⟩
    · exact Or.inl (by omega)
    · exact Or.inl (by omega)
    · exact Or.inl (by omega)
    · exact Or.inr ⟨by omega, le_trans h1s h2s⟩⟩

/-- The order induced by the comparator is total. -/
instance : IsTotal Code code_table_le :=
  ⟨fun a b => by
    rw [code_table_le_iff, code_table_le_iff]
    unfold canon_spec_le
    rcases Nat.lt_trichotomy a.length b.length with h | h | h
    · exact Or.inl (Or.inl h)
    · rcases le_total (sint8 a.symbol) (sint8 b.symbol) with hs | hs
      · exact Or.inl (Or.inr ⟨h, hs⟩)
      · exact Or.inr (Or.inr ⟨h.symm, hs⟩)
    · exact Or.inr (Or.inl h)⟩

/-- Comparator order implies length order. -/
theorem code_table_le_length {a b : Code} (h : code_table_le a b) :
    a.length ≤ b.length := by
  rw [code_table_le_iff] at h
  rcases h with h | ⟨h, -⟩ <;> omega

/-- The numbering pass does not change entry lengths. -/
theorem code_assign_loop_map_length : ∀ (cs : List Code) (cur : Code),
    (code_assign_loop cs cur).map Code.length = cs.map Code.length
  | [], _ => rfl
  | c :: rest, cur => by
    simp only [code_assign_loop, List.map_cons]
    rw [code_assign_loop_map_length rest _]

/-- The numbering pass does not change entry symbols. -/
theorem code_assign_loop_map_symbol : ∀ (cs : List Code) (cur : Code),
    (code_assign_loop cs cur).map Code.symbol = cs.map Code.symbol
  | [], _ => rfl
  | c :: rest, cur => by
    simp only [code_assign_loop, List.map_cons]
    rw [code_assign_loop_map_symbol rest _]

/-- The canonical numbering on a sorted length profile satisfying Kraft's
inequality (scaled to level 32) stays within the 32-bit field, every
pattern fits its length, later patterns dominate scaled earlier ones, and
the resulting table is prefix-free. -/
theorem assign_pref_core :
    ∀ (cs : List Code) (s v p : Nat),
      List.Sorted (· ≤ ·) (cs.map Code.length) →
      (∀ c ∈ cs, p ≤ c.length ∧ c.length ≤ 32) → p ≤ 32 →
      v * 2 ^ (32 - p) + (cs.map (fun c => 2 ^ (32 - c.length))).sum ≤ 2 ^ 32 →
      (∀ d ∈ code_assign_loop cs ⟨s, v, p⟩,
          p ≤ d.length ∧ d.length ≤ 32 ∧ v * 2 ^ (d.length - p) ≤ d.bits ∧
            d.bits < 2 ^ d.length) ∧
        code_table_pref_free (code_assign_loop cs ⟨s, v, p⟩) = true
  | [], _, _, _, _, _, _, _ => ⟨fun d hd => absurd hd (List.not_mem_nil d), rfl⟩
  | c :: rest, s, v, p, hsort, hb, hp32, hkraft => by
    obtain ⟨hpl, hl32⟩ := hb c (List.mem_cons_self c rest)
    simp only [List.map_cons, List.sum_cons] at hkraft
    have hpow_pos : ∀ k : Nat, 0 < 2 ^ k := fun k => pow_pos (by norm_num) k
    have hv1e : v * 2 ^ (c.length - p) * 2 ^ (32 - c.length) = v * 2 ^ (32 - p) := by
      rw [mul_assoc, ← pow_add]
      congr 2
      omega
    have hv1 : v * 2 ^ (c.length - p) * 2 ^ (32 - c.length) + 2 ^ (32 - c.length) +
        (rest.map (fun c => 2 ^ (32 - c.length))).sum ≤ 2 ^ 32 := by
      rw [hv1e]
      omega
    have h232 : (2 : Nat) ^ 32 = 2 ^ c.length * 2 ^ (32 - c.length) := by
      rw [← pow_add]
      congr 1
      omega
    have hv1lt : v * 2 ^ (c.length - p) + 1 ≤ 2 ^ c.length := by
      refine Nat.le_of_mul_le_mul_right ?_ (hpow_pos (32 - c.length))
      rw [add_mul, one_mul, ← h232]
      omega
    have hlU : (2 : Nat) ^ c.length ≤ U32 := by
      unfold U32
      exact Nat.pow_le_pow_right (by norm_num) hl32
    have hv1U : v * 2 ^ (c.length - p) < U32 := by
      have := hv1lt
      omega
    have hvU : v < U32 := by
      have hle : v ≤ v * 2 ^ (c.length - p) :=
        Nat.le_mul_of_pos_right v (hpow_pos (c.length - p))
      omega
    have hcursor : (if c.length > p then
        ({ symbol := s, bits := v * 2 ^ (c.length - p) % U32, length := c.length } : Code)
      else ⟨s, v, p⟩) = ⟨s, v * 2 ^ (c.length - p), c.length⟩ := by
      by_cases h : c.length > p
      · rw [if_pos h, Nat.mod_eq_of_lt hv1U]
      · rw [if_neg h]
        have hep : c.length = p := by omega
        have : v * 2 ^ (c.length - p) = v := by
          rw [hep, Nat.sub_self, pow_zero, mul_one]
        rw [this, hep]
    have hloop : code_assign_loop (c :: rest) ⟨s, v, p⟩ =
        { c with bits := v * 2 ^ (c.length - p) } ::
          code_assign_loop rest ⟨s, (v * 2 ^ (c.length - p) + 1) % U32, c.length⟩ := by
      simp only [code_assign_loop]
      rw [hcursor]
    rcases rest with _ | ⟨c2, rest2⟩
    · refine ⟨?_, ?_⟩
      · intro d hd
        rw [hloop] at hd
        simp only [code_assign_loop, List.mem_singleton] at hd
        subst hd
        refine ⟨hpl, hl32, ?_, ?_⟩
        · show v * 2 ^ (c.length - p) ≤ v * 2 ^ (c.length - p)
          exact le_refl _
        · show v * 2 ^ (c.length - p) < 2 ^ c.length
          omega
      · rw [hloop]
        simp [code_assign_loop, code_table_pref_free]
    · have hSpos : 1 ≤ ((c2 :: rest2).map (fun c => 2 ^ (32 - c.length))).sum := by
        simp only [List.map_cons, List.sum_cons]
        have := hpow_pos (32 - c2.length)
        omega
      have hnext_lt : v * 2 ^ (c.length - p) + 1 < U32 := by
        have h1 : (v * 2 ^ (c.length - p) + 1) * 2 ^ (32 - c.length) ≤ 2 ^ 32 - 1 := by
          rw [add_mul, one_mul]
          have := hpow_pos (32 - c.length)
          omega
        have h2 : v * 2 ^ (c.length - p) + 1 ≤
            (v * 2 ^ (c.length - p) + 1) * 2 ^ (32 - c.length) :=
          Nat.le_mul_of_pos_right _ (hpow_pos (32 - c.length))
        unfold U32
        omega
      have hmod : (v * 2 ^ (c.length - p) + 1) % U32 = v * 2 ^ (c.length - p) + 1 :=
        Nat.mod_eq_of_lt hnext_lt
      have hsort' : List.Sorted (· ≤ ·) ((c2 :: rest2).map Code.length) := by
        simp only [List.map_cons] at hsort ⊢
        exact hsort.of_cons
      have hhead_le : ∀ x ∈ (c2 :: rest2), c.length ≤ x.length := by
        intro x hx
        simp only [List.map_cons] at hsort
        exact List.rel_of_sorted_cons hsort _ (List.mem_map_of_mem Code.length hx)
      have hb' : ∀ x ∈ (c2 :: rest2), c.length ≤ x.length ∧ x.length ≤ 32 :=
        fun x hx => ⟨hhead_le x hx, (hb x (List.mem_cons_of_mem c hx)).2⟩
      have hkraft' : (v * 2 ^ (c.length - p) + 1) * 2 ^ (32 - c.length) +
          ((c2 :: rest2).map (fun c => 2 ^ (32 - c.length))).sum ≤ 2 ^ 32 := by
        rw [add_mul, one_mul]
        omega
      obtain ⟨ihb, ihp⟩ := assign_pref_core (c2 :: rest2) s
        (v * 2 ^ (c.length - p) + 1) c.length hsort' hb' hl32 hkraft'
      rw [hloop, hmod]
      have hd_facts : ∀ d ∈ code_assign_loop (c2 :: rest2)
          ⟨s, v * 2 ^ (c.length - p) + 1, c.length⟩,
          c.length ≤ d.length ∧ d.length ≤ 32 ∧
            (v * 2 ^ (c.length - p) + 1) * 2 ^ (d.length - c.length) ≤ d.bits ∧
            d.bits < 2 ^ d.length := ihb
      refine ⟨?_, ?_⟩
      · intro d hd
        rcases List.mem_cons.mp hd with hd | hd
        · subst hd
          refine ⟨hpl, hl32, ?_, ?_⟩
          · show v * 2 ^ (c.length - p) ≤ v * 2 ^ (c.length - p)
            exact le_refl _
          · show v * 2 ^ (c.length - p) < 2 ^ c.length
            omega
        · obtain ⟨hld, hd32, hbits, hfits⟩ := hd_facts d hd
          refine ⟨le_trans hpl hld, hd32, ?_, hfits⟩
          have hsplitd : v * 2 ^ (d.length - p) =
              v * 2 ^ (c.length - p) * 2 ^ (d.length - c.length) := by
            rw [mul_assoc, ← pow_add]
            congr 2
            omega
          have hmono : v * 2 ^ (c.length - p) * 2 ^ (d.length - c.length) ≤
              (v * 2 ^ (c.length - p) + 1) * 2 ^ (d.length - c.length) :=
            Nat.mul_le_mul_right _ (by omega)
          omega
      · have hx : code_table_pref_free
            ({ c with bits := v * 2 ^ (c.length - p) } ::
              code_assign_loop (c2 :: rest2) ⟨s, v * 2 ^ (c.length - p) + 1, c.length⟩) =
            ((code_assign_loop (c2 :: rest2)
                ⟨s, v * 2 ^ (c.length - p) + 1, c.length⟩).all
              (fun d => !code_is_pref { c with bits := v * 2 ^ (c.length - p) } d &&
                !code_is_pref d { c with bits := v * 2 ^ (c.length - p) }) &&
              code_table_pref_free
                (code_assign_loop (c2 :: rest2)
                  ⟨s, v * 2 ^ (c.length - p) + 1, c.length⟩)) := rfl
        rw [hx, ihp, Bool.and_true, List.all_eq_true]
        intro d hd
        obtain ⟨hld, hd32, hbits, hfits⟩ := hd_facts d hd
        have hquot_ge : v * 2 ^ (c.length - p) + 1 ≤ d.bits / 2 ^ (d.length - c.length) := by
          rw [Nat.le_div_iff_mul_le (hpow_pos (d.length - c.length))]
          exact hbits
        have hquot_lt : d.bits / 2 ^ (d.length - c.length) < 2 ^ c.length := by
          rw [Nat.div_lt_iff_lt_mul (hpow_pos (d.length - c.length))]
          calc d.bits < 2 ^ d.length := hfits
            _ = 2 ^ c.length * 2 ^ (d.length - c.length) := by
              rw [← pow_add]
              congr 1
              omega
        have hself : v * 2 ^ (c.length - p) % 2 ^ c.length = v * 2 ^ (c.length - p) :=
          Nat.mod_eq_of_lt (by omega)
        have hq : d.bits / 2 ^ (d.length - c.length) % 2 ^ c.length =
            d.bits / 2 ^ (d.length - c.length) := Nat.mod_eq_of_lt hquot_lt
        have h1 : code_is_pref { c with bits := v * 2 ^ (c.length - p) } d = false := by
          unfold code_is_pref
          rw [Bool.and_eq_false_iff]
          right
          rw [decide_eq_false_iff_not]
          show ¬ d.bits / 2 ^ (d.length - c.length) % 2 ^ c.length =
            v * 2 ^ (c.length - p) % 2 ^ c.length
          rw [hq, hself]
          omega
        have h2 : code_is_pref d { c with bits := v * 2 ^ (c.length - p) } = false := by
          unfold code_is_pref
          by_cases hdl : d.length = c.length
          · rw [Bool.and_eq_false_iff]
            right
            rw [decide_eq_false_iff_not]
            show ¬ (v * 2 ^ (c.length - p)) / 2 ^ (c.length - d.length) % 2 ^ d.length =
              d.bits % 2 ^ d.length
            rw [hdl, Nat.sub_self, pow_zero, Nat.div_one, Nat.mod_eq_of_lt (by omega),
              Nat.mod_eq_of_lt (by rwa [hdl] at hfits)]
            have : v * 2 ^ (c.length - p) + 1 ≤ d.bits := by
              have := hbits
              have h0 : (v * 2 ^ (c.length - p) + 1) * 2 ^ (d.length - c.length) =
                  v * 2 ^ (c.length - p) + 1 := by
                rw [hdl, Nat.sub_self, pow_zero, mul_one]
              omega
            omega
          · rw [Bool.and_eq_false_iff]
            left
            rw [decide_eq_false_iff_not]
            show ¬ d.length ≤ c.length
            omega
        rw [h1, h2]
        rfl

/-- The merge loop on an empty heap returns `none` (the final pop fails). -/
theorem huffman_merge_loop_nil (cmp : Node → Node → Int) (fuel : Nat) (pq : Heap)
    (h : pq.data = []) : huffman_merge_loop cmp (fuel + 1) pq = none := by
  rw [huffman_merge_loop, h]
  simp only [List.length_nil]
  rw [if_neg (by omega)]
  unfold heap_pop
  rw [h]

/-- Claim C5 (amended): every code table the compression path derives from
a frequency table — Huffman tree build with capacity `2 * symbol_count - 1`,
table extraction, canonicalization — whose code lengths all fit the 32-bit
pattern field is prefix-free.  (Without the length bound the claim fails:
see the depth-33 counterexample.) -/
theorem C5_canonicalize_short_codes_pref_free (freq : List Nat) (t : List Code)
    (ht : canonical_table_of_freq freq = some t)
    (h32 : ∀ c ∈ t, c.length ≤ 32) :
    code_table_pref_free t = true := by
  by_cases hne : freq_support freq = []
  · exfalso
    have hcap0 : ((List.range SYMBOL_SIZE).filter (fun ch => freq.getD ch 0 ≠ 0)).length +
        (heap_new (2 * freq_symbol_count freq - 1)).data.length ≤
        (heap_new (2 * freq_symbol_count freq - 1)).capacity := by
      show (freq_support freq).length + 0 ≤ 2 * freq_symbol_count freq - 1
      rw [hne]
      simp
    obtain ⟨pq, hfold, hcap', hperm⟩ :=
      leaf_fold_spec freq (List.range SYMBOL_SIZE)
        (heap_new (2 * freq_symbol_count freq - 1)) hcap0
    have hdata : pq.data = [] := by
      rw [show ((List.range SYMBOL_SIZE).filter (fun ch => freq.getD ch 0 ≠ 0)) = []
          from hne,
        show (heap_new (2 * freq_symbol_count freq - 1)).data = [] from rfl] at hperm
      simp only [List.map_nil, List.nil_append] at hperm
      exact List.perm_nil.mp hperm
    have htree : huffman_tree_from_freq freq (2 * freq_symbol_count freq - 1) = none := by
      unfold huffman_tree_from_freq
      rw [hfold]
      show huffman_merge_loop compare (pq.data.length + 1) pq = none
      exact huffman_merge_loop_nil compare pq.data.length pq hdata
    simp only [canonical_table_of_freq, htree, Option.bind_eq_bind, Option.none_bind] at ht
    exact Option.noConfusion ht
  · have hkdef : freq_symbol_count freq = (freq_support freq).length := rfl
    have hk1 : 1 ≤ freq_symbol_count freq := by
      rw [hkdef, Nat.succ_le_iff, List.length_pos]
      exact hne
    have hk128 : freq_symbol_count freq ≤ SYMBOL_SIZE := by
      rw [hkdef]
      unfold freq_support
      exact le_trans (List.length_filter_le _ _) (le_of_eq (List.length_range _))
    obtain ⟨root, hroot, hsyms, hfull, hlen⟩ :=
      huffman_tree_from_freq_spec freq (2 * freq_symbol_count freq - 1) hne (by omega)
    have hsizef := root.size_full hfull
    have hdepth := root.depth_lt_leaves hfull
    have htbl := code_table_from_huffman_tree_spec root (2 * freq_symbol_count freq - 1)
      (by omega) (by omega) (by omega)
    simp only [canonical_table_of_freq, hroot, htbl, Option.bind_eq_bind, Option.some_bind,
      Option.pure_def, Option.some.injEq, code_table_canonicalize] at ht
    subst ht
    have h32' : ∀ c ∈ List.insertionSort code_table_le
        (root.entries ⟨root.symbol, 0, 0⟩), c.length ≤ 32 := by
      intro c hc
      have hm : c.length ∈ (code_assign_loop (List.insertionSort code_table_le
          (root.entries ⟨root.symbol, 0, 0⟩)) ⟨0, 0, 0⟩).map Code.length := by
        rw [code_assign_loop_map_length]
        exact List.mem_map_of_mem Code.length hc
      obtain ⟨d, hd, hde⟩ := List.mem_map.mp hm
      rw [← hde]
      exact h32 d hd
    have hdep255 : (⟨root.symbol, 0, 0⟩ : Code).length + root.depth ≤ 255 := by
      show 0 + root.depth ≤ 255
      have hS : SYMBOL_SIZE = 128 := rfl
      omega
    have hlens : (root.entries ⟨root.symbol, 0, 0⟩).map Code.length = root.leafDepths := by
      have h := root.entries_map_length ⟨root.symbol, 0, 0⟩ hdep255
      simpa using h
    have hpermS : List.insertionSort code_table_le (root.entries ⟨root.symbol, 0, 0⟩) ~
        root.entries ⟨root.symbol, 0, 0⟩ :=
      List.perm_insertionSort code_table_le _
    have hdep32 : ∀ d ∈ root.leafDepths, d ≤ 32 := by
      intro d hd
      have h1 : d ∈ (root.entries ⟨root.symbol, 0, 0⟩).map Code.length := by
        rw [hlens]
        exact hd
      have h2 : d ∈ (List.insertionSort code_table_le
          (root.entries ⟨root.symbol, 0, 0⟩)).map Code.length :=
        ((hpermS.map Code.length).mem_iff).mpr h1
      obtain ⟨c, hc, hce⟩ := List.mem_map.mp h2
      rw [← hce]
      exact h32' c hc
    have hkraftE : ((root.leafDepths).map (fun d => 2 ^ (32 - d))).sum = 2 ^ 32 :=
      root.kraft hfull 32 hdep32
    have hsum : ((List.insertionSort code_table_le
        (root.entries ⟨root.symbol, 0, 0⟩)).map (fun c => 2 ^ (32 - c.length))).sum =
        2 ^ 32 := by
      rw [(hpermS.map (fun c => 2 ^ (32 - c.length))).sum_eq]
      rw [show (root.entries ⟨root.symbol, 0, 0⟩).map (fun c => 2 ^ (32 - c.length)) =
          ((root.entries ⟨root.symbol, 0, 0⟩).map Code.length).map
            (fun L => 2 ^ (32 - L)) from by rw [List.map_map]; rfl]
      rw [hlens, hkraftE]
    have hsorted : List.Sorted (· ≤ ·) ((List.insertionSort code_table_le
        (root.entries ⟨root.symbol, 0, 0⟩)).map Code.length) := by
      have hs : List.Sorted code_table_le (List.insertionSort code_table_le
          (root.entries ⟨root.symbol, 0, 0⟩)) :=
        List.sorted_insertionSort code_table_le _
      rw [List.Sorted, List.pairwise_map]
      exact hs.imp (fun h => code_table_le_length h)
    exact (assign_pref_core (List.insertionSort code_table_le
        (root.entries ⟨root.symbol, 0, 0⟩)) 0 0 0 hsorted
      (fun c hc => ⟨Nat.zero_le _, h32' c hc⟩) (by omega)
      (by rw [hsum]; simp)).2

/-- Reading an updated position returns the written value. -/
theorem getD_set_self_nat : ∀ (l : List Nat) (i v : Nat), i < l.length →
    (l.set i v).getD i 0 = v
  | [], _, _, h => absurd h (by simp)
  | _ :: _, 0, _, _ => rfl
  | _ :: l, i + 1, v, h => getD_set_self_nat l i v (Nat.lt_of_succ_lt_succ h)

/-- Reading any other position is unchanged by an update. -/
theorem getD_set_ne_nat : ∀ (l : List Nat) (i j v : Nat), i ≠ j →
    (l.set i v).getD j 0 = l.getD j 0
  | [], _, _, _, _ => rfl
  | _ :: _, 0, 0, _, h => absurd rfl h
  | _ :: _, 0, _ + 1, _, _ => rfl
  | _ :: _, _ + 1, 0, _, _ => rfl
  | _ :: l, i + 1, j + 1, v, h => getD_set_ne_nat l i j v (fun he => h (by rw [he]))

/-- Flipping one predicate value from false to true on a duplicate-free
list raises the count by one. -/
theorem countP_flip (p q : Nat → Bool) (b : Nat) :
    ∀ l : List Nat, l.Nodup → b ∈ l →
      (∀ a, a ≠ b → q a = p a) → q b = true → p b = false →
      l.countP q = l.countP p + 1
  | [], _, hb, _, _, _ => absurd hb (List.not_mem_nil b)
  | a :: l, hnd, hb, hagree, hqb, hpb => by
    rcases List.mem_cons.mp hb with rfl | hb'
    · have hnotin : b ∉ l := (List.nodup_cons.mp hnd).1
      have hcong : l.countP q = l.countP p :=
        List.countP_congr (fun x hx => by rw [hagree x (fun he => hnotin (he ▸ hx))])
      rw [List.countP_cons, List.countP_cons, hqb, hpb, hcong]
      simp
    · have hane : a ≠ b := fun he => (List.nodup_cons.mp hnd).1 (he ▸ hb')
      rw [List.countP_cons, List.countP_cons, hagree a hane,
        countP_flip p q b l (List.nodup_cons.mp hnd).2 hb' hagree hqb hpb]
      omega

/-- The all-zero table reads zero everywhere. -/
theorem getD_replicate_zero : ∀ (n ch : Nat), (List.replicate n (0 : Nat)).getD ch 0 = 0
  | 0, _ => rfl
  | _ + 1, 0 => rfl
  | n + 1, ch + 1 => getD_replicate_zero n ch

/-- The counting fold of `freq_table_build`: when it succeeds, the updated
table still has `SYMBOL_SIZE` entries, the running symbol count tracks the
table's support, every processed byte was in the alphabet, and each entry
grew by that symbol's number of occurrences. -/
theorem freq_fold_spec : ∀ (rest : List Nat) (freq : List Nat) (sc : Nat)
      (out : List Nat × Nat),
    rest.foldlM (fun (st : List Nat × Nat) b => do
        let (freq, sc) := st
        if b < SYMBOL_SIZE then
          let e := freq.getD b 0
          pure (freq.set b (e + 1), if e = 0 then sc + 1 else sc)
        else none) (freq, sc) = some out →
    freq.length = SYMBOL_SIZE → sc = freq_symbol_count freq →
    out.1.length = SYMBOL_SIZE ∧ out.2 = freq_symbol_count out.1 ∧
      (∀ b ∈ rest, b < SYMBOL_SIZE) ∧
      ∀ ch, out.1.getD ch 0 = freq.getD ch 0 + rest.count ch
  | [], freq, sc, out, h, hlen, hsc => by
    simp only [List.foldlM_nil] at h
    have hout : out = (freq, sc) := by simpa using h.symm
    subst hout
    exact ⟨hlen, hsc, fun b hb => absurd hb (List.not_mem_nil b), fun ch => by simp⟩
  | b :: rest, freq, sc, out, h, hlen, hsc => by
    rw [List.foldlM_cons] at h
    replace h : (if b < SYMBOL_SIZE then
          some (freq.set b (freq.getD b 0 + 1),
            if freq.getD b 0 = 0 then sc + 1 else sc)
        else none) >>= (fun init =>
          rest.foldlM (fun (st : List Nat × Nat) b => do
            let (freq, sc) := st
            if b < SYMBOL_SIZE then
              let e := freq.getD b 0
              pure (freq.set b (e + 1), if e = 0 then sc + 1 else sc)
            else none) init) = some out := h
    by_cases hb : b < SYMBOL_SIZE
    · rw [if_pos hb] at h
      simp only [Option.bind_eq_bind, Option.some_bind] at h
      have hblen : b < freq.length := by rw [hlen]; exact hb
      have hlen' : (freq.set b (freq.getD b 0 + 1)).length = SYMBOL_SIZE := by
        rw [List.length_set]; exact hlen
      have hsc' : (if freq.getD b 0 = 0 then sc + 1 else sc) =
          freq_symbol_count (freq.set b (freq.getD b 0 + 1)) := by
        by_cases he : freq.getD b 0 = 0
        · rw [if_pos he, hsc]
          unfold freq_symbol_count freq_support
          rw [← List.countP_eq_length_filter, ← List.countP_eq_length_filter]
          rw [countP_flip (fun ch => decide (freq.getD ch 0 ≠ 0))
            (fun ch => decide ((freq.set b (freq.getD b 0 + 1)).getD ch 0 ≠ 0)) b
            (List.range SYMBOL_SIZE) (List.nodup_range SYMBOL_SIZE)
            (List.mem_range.mpr hb)
            (fun a ha => by
              show decide ((freq.set b (freq.getD b 0 + 1)).getD a 0 ≠ 0) =
                decide (freq.getD a 0 ≠ 0)
              rw [getD_set_ne_nat freq b a _ (fun he2 => ha he2.symm)])
            (by
              show decide ((freq.set b (freq.getD b 0 + 1)).getD b 0 ≠ 0) = true
              rw [getD_set_self_nat freq b _ hblen]
              simp)
            (by
              show decide (freq.getD b 0 ≠ 0) = false
              rw [he]
              simp)]
        · rw [if_neg he, hsc]
          unfold freq_symbol_count freq_support
          congr 1
          refine List.filter_congr (fun a _ => ?_)
          by_cases hab : a = b
          · subst hab
            show decide (freq.getD a 0 ≠ 0) =
              decide ((freq.set a (freq.getD a 0 + 1)).getD a 0 ≠ 0)
            rw [getD_set_self_nat freq a _ hblen]
            simp only [decide_eq_decide]
            omega
          · show decide (freq.getD a 0 ≠ 0) =
              decide ((freq.set b (freq.getD b 0 + 1)).getD a 0 ≠ 0)
            rw [getD_set_ne_nat freq b a _ (fun he2 => hab he2.symm)]
      obtain ⟨ih1, ih2, ih3, ih4⟩ := freq_fold_spec rest _ _ out h hlen' hsc'
      refine ⟨ih1, ih2, ?_, ?_⟩
      · intro x hx
        rcases List.mem_cons.mp hx with rfl | hx'
        · exact hb
        · exact ih3 x hx'
      · intro ch
        rw [ih4 ch, List.count_cons]
        by_cases hch : ch = b
        · subst hch
          rw [getD_set_self_nat freq ch _ hblen]
          have hbeq : (ch == ch) = true := beq_self_eq_true ch
          rw [hbeq]
          simp only [if_true]
          omega
        · rw [getD_set_ne_nat freq b ch _ (fun he2 => hch he2.symm)]
          have hbeq : (b == ch) = false := beq_eq_false_iff_ne.mpr (fun he2 => hch he2.symm)
          rw [hbeq]
          simp
    · rw [if_neg hb] at h
      simp only [Option.bind_eq_bind, Option.none_bind] at h
      exact Option.noConfusion h

/-- `freq_table_build` on success: the table has 128 entries counting each
symbol's occurrences, the symbol count is the support size, every input
byte was in the alphabet, and the node count is the wrapped `2n - 1`. -/
theorem freq_table_build_spec (input : List Nat) (freq : List Nat) (sc nc : Nat)
    (h : freq_table_build input = some (freq, sc, nc)) :
    freq.length = SYMBOL_SIZE ∧ sc = freq_symbol_count freq ∧
      (∀ b ∈ input, b < SYMBOL_SIZE) ∧
      (∀ ch, freq.getD ch 0 = input.count ch) ∧
      nc = (2 * sc + (USIZE - 1)) % USIZE := by
  unfold freq_table_build at h
  rw [Option.bind_eq_bind] at h
  obtain ⟨fs, hfold, hfs⟩ := Option.bind_eq_some.mp h
  simp only [Option.pure_def, Option.some.injEq, Prod.mk.injEq] at hfs
  obtain ⟨hf1, hf2, hf3⟩ := hfs
  obtain ⟨o1, o2, o3, o4⟩ := freq_fold_spec input (List.replicate SYMBOL_SIZE 0) 0 fs
    hfold (by simp) (by decide)
  refine ⟨by rw [← hf1]; exact o1, by rw [← hf1, ← hf2]; exact o2,
    o3, ?_, by rw [← hf2]; exact hf3.symm⟩
  intro ch
  rw [← hf1, o4 ch, getD_replicate_zero]
  omega

/-- The support of the built frequency table is exactly the input's
distinct-symbol list. -/
theorem support_eq_distinct (input freq : List Nat)
    (hcount : ∀ ch, freq.getD ch 0 = input.count ch) :
    freq_support freq = distinct_symbols input := by
  unfold freq_support distinct_symbols
  refine List.filter_congr (fun ch _ => ?_)
  show decide (freq.getD ch 0 ≠ 0) = decide (ch ∈ input)
  rw [hcount ch, decide_eq_decide]
  rw [ne_eq, List.count_eq_zero]
  exact not_not

/-- A frequency table without support gives the merge loop an empty heap,
so the tree build fails whatever the claimed node count. -/
theorem huffman_tree_from_freq_empty_support (freq : List Nat) (nc : Nat)
    (hne : freq_support freq = []) :
    huffman_tree_from_freq freq nc = none := by
  have hcap0 : ((List.range SYMBOL_SIZE).filter (fun ch => freq.getD ch 0 ≠ 0)).length +
      (heap_new nc).data.length ≤ (heap_new nc).capacity := by
    show (freq_support freq).length + 0 ≤ nc
    rw [hne]
    simp
  obtain ⟨pq, hfold, hcap', hperm⟩ :=
    leaf_fold_spec freq (List.range SYMBOL_SIZE) (heap_new nc) hcap0
  have hdata : pq.data = [] := by
    rw [show ((List.range SYMBOL_SIZE).filter (fun ch => freq.getD ch 0 ≠ 0)) = []
        from hne,
      show (heap_new nc).data = [] from rfl] at hperm
    simp only [List.map_nil, List.nil_append] at hperm
    exact List.perm_nil.mp hperm
  unfold huffman_tree_from_freq
  rw [hfold]
  show huffman_merge_loop compare (pq.data.length + 1) pq = none
  exact huffman_merge_loop_nil compare pq.data.length pq hdata

/-- A code contributes one bit per unit of length. -/
theorem code_bits_length (c : Code) : (code_bits c).length = c.length := by
  unfold code_bits
  simp

/-- The packed stream carries `total_bits` bits. -/
theorem code_stream_length (tbl : List Code) (input : List Nat) :
    (code_stream tbl input).length = total_bits input tbl := by
  unfold code_stream total_bits
  rw [List.length_flatten, List.map_map]
  congr 1
  refine List.map_congr_left (fun ch _ => ?_)
  exact code_bits_length _

/-- Every element of the packed stream is a single bit. -/
theorem code_stream_bits_lt (tbl : List Code) (input : List Nat) :
    ∀ b ∈ code_stream tbl input, b < 2 := by
  intro b hb
  unfold code_stream at hb
  rw [List.mem_flatten] at hb
  obtain ⟨l, hl, hbl⟩ := hb
  rw [List.mem_map] at hl
  obtain ⟨ch, _, hleq⟩ := hl
  rw [← hleq] at hbl
  unfold code_bits at hbl
  rw [List.mem_map] at hbl
  obtain ⟨i, _, hieq⟩ := hbl
  rw [← hieq]
  exact Nat.mod_lt _ (by norm_num)

/-- The byte-packing fold of `compress`: starting from a partial
accumulator, the accumulator length stays the running bit count modulo 8,
its bits fit, and one output byte appears per 8 bits. -/
theorem emit_fold_spec : ∀ (bs : List Nat) (c : Code) (out : List Nat),
    c.length < 8 → c.bits < 2 ^ c.length → (∀ b ∈ bs, b < 2) →
    (bs.foldl compress_emit_bit (c, out)).1.length = (c.length + bs.length) % 8 ∧
      (bs.foldl compress_emit_bit (c, out)).1.bits <
        2 ^ (bs.foldl compress_emit_bit (c, out)).1.length ∧
      (bs.foldl compress_emit_bit (c, out)).2.length =
        out.length + (c.length + bs.length) / 8
  | [], c, out, hlen, hbits, _ => by
    simp only [List.foldl_nil, List.length_nil, Nat.add_zero]
    exact ⟨(Nat.mod_eq_of_lt hlen).symm, hbits, by omega⟩
  | b :: bs, c, out, hlen, hbits, hb2 => by
    have hb : b < 2 := hb2 b (List.mem_cons_self b bs)
    have hpow7 : (2 : Nat) ^ c.length ≤ 2 ^ 7 :=
      Nat.pow_le_pow_right (by norm_num) (by omega)
    have hmod8 : (c.length + 1) % U8 = c.length + 1 :=
      Nat.mod_eq_of_lt (by unfold U8; omega)
    have hbU : (c.bits * 2 + b) % U32 = c.bits * 2 + b :=
      Nat.mod_eq_of_lt (by unfold U32; omega)
    rw [List.foldl_cons]
    by_cases h8 : c.length + 1 = 8
    · have hstep : compress_emit_bit (c, out) b =
          ({ symbol := c.symbol, bits := 0, length := 0 },
            out ++ [(c.bits * 2 + b) % U8]) := by
        unfold compress_emit_bit code_append
        simp only [hmod8, hbU]
        rw [if_pos h8]
      rw [hstep]
      obtain ⟨i1, i2, i3⟩ := emit_fold_spec bs ⟨c.symbol, 0, 0⟩ (out ++ [(c.bits * 2 + b) % U8])
        (by norm_num) (by norm_num) (fun x hx => hb2 x (List.mem_cons_of_mem b hx))
      refine ⟨?_, i2, ?_⟩
      · rw [i1]
        show (0 + bs.length) % 8 = (c.length + (bs.length + 1)) % 8
        omega
      · rw [i3]
        simp only [List.length_append, List.length_singleton, List.length_cons]
        show out.length + 1 + (0 + bs.length) / 8 = out.length + (c.length + (bs.length + 1)) / 8
        omega
    · have hstep : compress_emit_bit (c, out) b =
          ({ symbol := c.symbol, bits := c.bits * 2 + b, length := c.length + 1 }, out) := by
        unfold compress_emit_bit code_append
        simp only [hmod8, hbU]
        rw [if_neg h8]
      rw [hstep]
      have hfit : c.bits * 2 + b < 2 ^ (c.length + 1) := by
        rw [pow_succ]
        omega
      obtain ⟨i1, i2, i3⟩ := emit_fold_spec bs ⟨c.symbol, c.bits * 2 + b, c.length + 1⟩ out
        (by show c.length + 1 < 8; omega) hfit
        (fun x hx => hb2 x (List.mem_cons_of_mem b hx))
      refine ⟨?_, i2, ?_⟩
      · rw [i1]
        show (c.length + 1 + bs.length) % 8 = (c.length + (bs.length + 1)) % 8
        omega
      · rw [i3]
        show out.length + (c.length + 1 + bs.length) / 8 =
          out.length + (c.length + (bs.length + 1)) / 8
        omega

/-- The packed body always ends in a flush byte: its length is
`totalBits / 8 + 1` and the flush byte's low bits are zero. -/
theorem compress_body_spec (input : List Nat) (tbl : List Code) :
    ∃ pre pad, compress_body input tbl = pre ++ [pad] ∧
      pre.length = total_bits input tbl / 8 ∧
      (compress_body input tbl).length = total_bits input tbl / 8 + 1 ∧
      2 ^ (8 - total_bits input tbl % 8) ∣ pad := by
  obtain ⟨h1, h2, h3⟩ := emit_fold_spec (code_stream tbl input) ⟨0, 0, 0⟩ []
    (by norm_num) (by norm_num) (code_stream_bits_lt tbl input)
  rw [code_stream_length] at h1 h3
  simp only [List.length_nil, Nat.zero_add] at h1 h3
  have hbody : compress_body input tbl =
      ((code_stream tbl input).foldl compress_emit_bit (⟨0, 0, 0⟩, [])).2 ++
        [((code_stream tbl input).foldl compress_emit_bit (⟨0, 0, 0⟩, [])).1.bits *
          2 ^ (8 - ((code_stream tbl input).foldl compress_emit_bit
            (⟨0, 0, 0⟩, [])).1.length) % U32 % U8] := by
    unfold compress_body
    rw [if_pos (by rw [h1]; omega)]
  generalize hF : (code_stream tbl input).foldl compress_emit_bit
      (⟨0, 0, 0⟩, ([] : List Nat)) = F at h1 h2 h3 hbody
  refine ⟨F.2, F.1.bits * 2 ^ (8 - F.1.length) % U32 % U8, hbody, h3, ?_, ?_⟩
  · rw [hbody]
    simp only [List.length_append, List.length_singleton]
    omega
  · have hfit : F.1.bits * 2 ^ (8 - F.1.length) < 2 ^ 8 := by
      calc F.1.bits * 2 ^ (8 - F.1.length)
          < 2 ^ F.1.length * 2 ^ (8 - F.1.length) :=
            Nat.mul_lt_mul_of_pos_right h2 (pow_pos (by norm_num) _)
        _ = 2 ^ 8 := by
            rw [← pow_add]
            congr 1
            omega
    have hm1 : F.1.bits * 2 ^ (8 - F.1.length) % U32 = F.1.bits * 2 ^ (8 - F.1.length) :=
      Nat.mod_eq_of_lt (by unfold U32; omega)
    have hm2 : F.1.bits * 2 ^ (8 - F.1.length) % U8 = F.1.bits * 2 ^ (8 - F.1.length) :=
      Nat.mod_eq_of_lt (by unfold U8; omega)
    rw [hm1, hm2, ← h1]
    exact dvd_mul_left _ _

/-- The numbering pass does not change entry symbols or lengths. -/
theorem code_assign_loop_map_pair : ∀ (cs : List Code) (cur : Code),
    (code_assign_loop cs cur).map (fun c => (c.symbol, c.length)) =
      cs.map (fun c => (c.symbol, c.length))
  | [], _ => rfl
  | c :: rest, cur => by
    simp only [code_assign_loop, List.map_cons]
    rw [code_assign_loop_map_pair rest _]

/-- Claim C6 (amended): for every input the compression path accepts, the
container is exactly the 4-byte big-endian original length, the table
length as one byte, one `(symbol, length)` byte pair per entry in the
canonical table's sorted order, then the packed body; the table lists the
input's distinct symbols sorted by the canonical order; and the body is
`floor(totalBits/8) + 1` bytes — one more than the claimed
`ceil(totalBits/8)` when `totalBits` is a multiple of 8 — with the final
byte's low bits zero. -/
theorem C6_container_layout (input : List Nat) (t : List Code)
    (ht : canonical_table input = some t) :
    compress_pipeline input =
        some (uint32_be_write input.length ++ [t.length % U8] ++ pair_bytes t ++
          compress_body input t) ∧
      t.map Code.symbol ~ distinct_symbols input ∧
      t.length = (distinct_symbols input).length ∧
      List.Sorted code_table_le t ∧
      ∃ pre pad, compress_body input t = pre ++ [pad] ∧
        pre.length = total_bits input t / 8 ∧
        (compress_body input t).length = total_bits input t / 8 + 1 ∧
        2 ^ (8 - total_bits input t % 8) ∣ pad := by
  unfold canonical_table at ht
  rw [Option.bind_eq_bind] at ht
  obtain ⟨fs, hfb, hrest⟩ := Option.bind_eq_some.mp ht
  obtain ⟨freq, sc, nc⟩ := fs
  obtain ⟨hlen128, hsc, hbytes, hcount, hncdef⟩ := freq_table_build_spec input freq sc nc hfb
  have hsupp : freq_support freq = distinct_symbols input :=
    support_eq_distinct input freq hcount
  replace hrest : (huffman_tree_from_freq freq nc) >>= (fun root =>
      (code_table_from_huffman_tree root nc) >>= (fun tbl =>
        some (code_table_canonicalize tbl))) = some t := hrest
  by_cases hne : freq_support freq = []
  · exfalso
    rw [huffman_tree_from_freq_empty_support freq nc hne] at hrest
    simp only [Option.bind_eq_bind, Option.none_bind] at hrest
    exact Option.noConfusion hrest
  · have hkdef : freq_symbol_count freq = (freq_support freq).length := rfl
    have hS : SYMBOL_SIZE = 128 := rfl
    have hsc1 : 1 ≤ sc := by
      rw [hsc, hkdef, Nat.succ_le_iff, List.length_pos]
      exact hne
    have hsc128 : freq_symbol_count freq ≤ SYMBOL_SIZE := by
      rw [hkdef]
      unfold freq_support
      exact le_trans (List.length_filter_le _ _) (le_of_eq (List.length_range _))
    have hncv : nc = 2 * sc - 1 := by
      rw [hncdef, show USIZE = 2 ^ 64 from rfl]
      omega
    obtain ⟨root, hroot, hsyms, hfull, hlenS⟩ :=
      huffman_tree_from_freq_spec freq nc hne (by rw [← hkdef]; omega)
    have hsizeb : root.size ≤ nc := by
      have := root.size_full hfull
      omega
    have htbl := code_table_from_huffman_tree_spec root nc (by omega) hsizeb (by omega)
    rw [hroot] at hrest
    simp only [Option.bind_eq_bind, Option.some_bind] at hrest
    rw [htbl] at hrest
    simp only [Option.some_bind, Option.some.injEq] at hrest
    subst hrest
    have hcanon : code_table_canonicalize (root.entries ⟨root.symbol, 0, 0⟩) =
        code_assign_loop (List.insertionSort code_table_le
          (root.entries ⟨root.symbol, 0, 0⟩)) ⟨0, 0, 0⟩ := rfl
    have hmapsym : (code_table_canonicalize (root.entries ⟨root.symbol, 0, 0⟩)).map
        Code.symbol ~ distinct_symbols input := by
      rw [hcanon, code_assign_loop_map_symbol]
      have h1 : (List.insertionSort code_table_le (root.entries ⟨root.symbol, 0, 0⟩)).map
          Code.symbol ~ (root.entries ⟨root.symbol, 0, 0⟩).map Code.symbol :=
        (List.perm_insertionSort code_table_le _).map Code.symbol
      refine h1.trans ?_
      rw [root.entries_map_symbol ⟨root.symbol, 0, 0⟩ rfl, ← hsupp]
      exact Multiset.coe_eq_coe.mp hsyms
    have hcov : ∀ ch ∈ input, (code_table_find
        (code_table_canonicalize (root.entries ⟨root.symbol, 0, 0⟩)) ch).isSome := by
      intro ch hch
      have hmem : ch ∈ distinct_symbols input := by
        unfold distinct_symbols
        rw [List.mem_filter]
        exact ⟨List.mem_range.mpr (hbytes ch hch), by simpa using hch⟩
      have hmem2 : ch ∈ (code_table_canonicalize
          (root.entries ⟨root.symbol, 0, 0⟩)).map Code.symbol :=
        hmapsym.mem_iff.mpr hmem
      obtain ⟨c, hc, hcsym⟩ := List.mem_map.mp hmem2
      have hfind : code_table_find
          (code_table_canonicalize (root.entries ⟨root.symbol, 0, 0⟩)) ch ≠ none := by
        unfold code_table_find
        rw [ne_eq, List.find?_eq_none]
        push_neg
        exact ⟨c, hc, by simp [hcsym]⟩
      exact Option.ne_none_iff_isSome.mp hfind
    have hpipe : compress_pipeline input =
        compress input (code_table_canonicalize (root.entries ⟨root.symbol, 0, 0⟩)) := by
      unfold compress_pipeline
      rw [hfb]
      show (huffman_tree_from_freq freq nc) >>= (fun root =>
          (code_table_from_huffman_tree root nc) >>= (fun tbl =>
            compress input (code_table_canonicalize tbl))) =
        compress input (code_table_canonicalize (root.entries ⟨root.symbol, 0, 0⟩))
      rw [hroot]
      simp only [Option.bind_eq_bind, Option.some_bind]
      rw [htbl]
      simp only [Option.some_bind]
    refine ⟨?_, hmapsym, ?_, ?_, compress_body_spec input _⟩
    · rw [hpipe]
      exact compress_eq input _ hcov
    · have hl := hmapsym.length_eq
      rw [List.length_map] at hl
      exact hl
    · have hs : List.Sorted code_table_le (List.insertionSort code_table_le
          (root.entries ⟨root.symbol, 0, 0⟩)) :=
        List.sorted_insertionSort code_table_le _
      have h2 : List.Pairwise (fun p q : Nat × Nat =>
          code_table_le ⟨p.1, 0, p.2⟩ ⟨q.1, 0, q.2⟩)
          ((List.insertionSort code_table_le (root.entries ⟨root.symbol, 0, 0⟩)).map
            (fun c => (c.symbol, c.length))) :=
        List.pairwise_map.mpr (hs.imp (fun h => h))
      rw [← code_assign_loop_map_pair _ (⟨0, 0, 0⟩ : Code)] at h2
      have h3 := List.pairwise_map.mp h2
      exact h3.imp (fun h => h)

/-- Witness for the C6 amended theorem at the input "hello". -/
theorem C6_layout_witness :
    canonical_table [104, 101, 108, 108, 111] =
        some [⟨108, 0, 1⟩, ⟨111, 2, 2⟩, ⟨101, 6, 3⟩, ⟨104, 7, 3⟩] ∧
      (compress_pipeline [104, 101, 108, 108, 111] =
          some (uint32_be_write (List.length [104, 101, 108, 108, 111]) ++
            [List.length [(⟨108, 0, 1⟩ : Code), ⟨111, 2, 2⟩, ⟨101, 6, 3⟩, ⟨104, 7, 3⟩] % U8] ++
            pair_bytes [⟨108, 0, 1⟩, ⟨111, 2, 2⟩, ⟨101, 6, 3⟩, ⟨104, 7, 3⟩] ++
            compress_body [104, 101, 108, 108, 111]
              [⟨108, 0, 1⟩, ⟨111, 2, 2⟩, ⟨101, 6, 3⟩, ⟨104, 7, 3⟩]) ∧
        ([(⟨108, 0, 1⟩ : Code), ⟨111, 2, 2⟩, ⟨101, 6, 3⟩, ⟨104, 7, 3⟩].map Code.symbol ~
          distinct_symbols [104, 101, 108, 108, 111]) ∧
        List.length [(⟨108, 0, 1⟩ : Code), ⟨111, 2, 2⟩, ⟨101, 6, 3⟩, ⟨104, 7, 3⟩] =
          (distinct_symbols [104, 101, 108, 108, 111]).length ∧
        List.Sorted code_table_le [⟨108, 0, 1⟩, ⟨111, 2, 2⟩, ⟨101, 6, 3⟩, ⟨104, 7, 3⟩] ∧
        ∃ pre pad, compress_body [104, 101, 108, 108, 111]
            [⟨108, 0, 1⟩, ⟨111, 2, 2⟩, ⟨101, 6, 3⟩, ⟨104, 7, 3⟩] = pre ++ [pad] ∧
          pre.length = total_bits [104, 101, 108, 108, 111]
            [⟨108, 0, 1⟩, ⟨111, 2, 2⟩, ⟨101, 6, 3⟩, ⟨104, 7, 3⟩] / 8 ∧
          (compress_body [104, 101, 108, 108, 111]
            [⟨108, 0, 1⟩, ⟨111, 2, 2⟩, ⟨101, 6, 3⟩, ⟨104, 7, 3⟩]).length =
            total_bits [104, 101, 108, 108, 111]
              [⟨108, 0, 1⟩, ⟨111, 2, 2⟩, ⟨101, 6, 3⟩, ⟨104, 7, 3⟩] / 8 + 1 ∧
          2 ^ (8 - total_bits [104, 101, 108, 108, 111]
            [⟨108, 0, 1⟩, ⟨111, 2, 2⟩, ⟨101, 6, 3⟩, ⟨104, 7, 3⟩] % 8) ∣ pad) :=
  ⟨by decide, C6_container_layout [104, 101, 108, 108, 111]
    [⟨108, 0, 1⟩, ⟨111, 2, 2⟩, ⟨101, 6, 3⟩, ⟨104, 7, 3⟩] (by decide)⟩

/-- Witness for the C5 amended theorem: the frequency table of the input
"hello" yields the canonical table whose codes are prefix-free. -/
theorem C5_short_codes_pref_free_witness :
    canonical_table_of_freq
        (((((List.replicate SYMBOL_SIZE 0).set 101 1).set 104 1).set 108 2).set 111 1) =
      some [⟨108, 0, 1⟩, ⟨111, 2, 2⟩, ⟨101, 6, 3⟩, ⟨104, 7, 3⟩] ∧
    code_table_pref_free [⟨108, 0, 1⟩, ⟨111, 2, 2⟩, ⟨101, 6, 3⟩, ⟨104, 7, 3⟩] = true :=
  ⟨by decide,
    C5_canonicalize_short_codes_pref_free
      (((((List.replicate SYMBOL_SIZE 0).set 101 1).set 104 1).set 108 2).set 111 1)
      [⟨108, 0, 1⟩, ⟨111, 2, 2⟩, ⟨101, 6, 3⟩, ⟨104, 7, 3⟩] (by decide) (by decide)⟩

end Huffman
